import Mathlib

/-!
Verification development for the GitHub star-leaderboard scripts
(src/github/generate_awesome_docker_stars.py and src/github/get_stars.py).

Python strings are embedded as lists of characters (`Str`).  Python string
methods (splitlines, strip, split, join, count) and the regular expressions
used by the scripts are translated into executable Lean functions.  The
regexes in the source are deterministic (each greedy sub-pattern is followed
by a character it can never match), so each is translated to a direct parser.
Machine integers do not occur: Python ints are unbounded, so they are `Int`
or `Nat`.  Python float arithmetic (true division, `.1f` formatting) is
embedded exactly, as correctly-rounded binary64 arithmetic over `Rat`.
-/

set_option maxRecDepth 8000

/-- Python strings, embedded as lists of unicode characters. -/
abbrev Str : Type := List Char

/-- Coerce a Lean string literal to the embedding. -/
def strLit (s : String) : Str := s.data

/-- The whitespace characters recognised by Python's `str.strip()`,
`str.isspace` and the `\s` class of the `re` module (they agree on
this set for text patterns). -/
def isPySpace (c : Char) : Bool :=
  c = ' ' ∨ c = '\t' ∨ c = '\n' ∨ c = '\x0b' ∨ c = '\x0c' ∨ c = '\r' ∨
  c = '\x1c' ∨ c = '\x1d' ∨ c = '\x1e' ∨ c = '\x1f' ∨ c = '\x85' ∨
  c = '\xa0' ∨ c = ' ' ∨ (' ' ≤ c ∧ c ≤ ' ') ∨
  c = ' ' ∨ c = ' ' ∨ c = ' ' ∨ c = ' ' ∨ c = '　'

/-- The line-boundary characters of Python's `str.splitlines`. -/
def isLineBreak (c : Char) : Bool :=
  c = '\n' ∨ c = '\r' ∨ c = '\x0b' ∨ c = '\x0c' ∨
  c = '\x1c' ∨ c = '\x1d' ∨ c = '\x1e' ∨ c = '\x85' ∨
  c = ' ' ∨ c = ' '

/-- Python `str.splitlines()`: split at line boundaries, treating a
`\r\n` pair as a single boundary; the boundary characters are removed and
a trailing boundary produces no extra empty line. -/
def pySplitlines : Str → List Str
  | [] => []
  | '\r' :: '\n' :: r => [] :: pySplitlines r
  | c :: r =>
    if isLineBreak c then [] :: pySplitlines r
    else
      match pySplitlines r with
      | [] => [[c]]
      | l :: ls => (c :: l) :: ls

/-- Python `str.strip(chars)`: remove the characters satisfying `p` from
both ends. -/
def pyStripP (p : Char → Bool) (s : Str) : Str :=
  ((s.dropWhile p).reverse.dropWhile p).reverse

/-- Python `str.strip()` with no argument: strip whitespace. -/
def pyStrip (s : Str) : Str := pyStripP isPySpace s

/-- Python `str.strip(chars)` for an explicit character set. -/
def pyStripChars (cs : List Char) (s : Str) : Str :=
  pyStripP (fun c => cs.contains c) s

/-- Locate the first occurrence of (non-empty) `sep` in `s`: returns the
text before it and the text after it, or `none` if `sep` does not occur. -/
def splitFirst (sep : Str) : Str → Option (Str × Str)
  | [] => none
  | c :: r =>
    if sep.isPrefixOf (c :: r) then some ([], (c :: r).drop sep.length)
    else (splitFirst sep r).map (fun ba => (c :: ba.1, ba.2))

/-- Fuelled worker for `pySplit`; the fuel only serves termination and is
always sufficient (see `pySplit_eq`). -/
def pySplitF (sep : Str) : Nat → Str → List Str
  | 0, s => [s]
  | f + 1, s =>
    match splitFirst sep s with
    | none => [s]
    | some ba => ba.1 :: pySplitF sep f ba.2

/-- Python `str.split(sep)` for a non-empty separator: cut at each
leftmost non-overlapping occurrence of `sep`. -/
def pySplit (sep s : Str) : List Str := pySplitF sep (s.length + 1) s

/-- Python `sep.join(parts)`. -/
def joinSep (sep : Str) : List Str → Str
  | [] => []
  | [p] => p
  | p :: q :: r => p ++ sep ++ joinSep sep (q :: r)

/-- Python `str.count(c)` for a single-character argument. -/
def countChar (c : Char) (s : Str) : Nat := s.count c

/-- Python `str.lower()` (ASCII range; the strings compared by the scripts
are ASCII). -/
def pyLower (s : Str) : Str := s.map Char.toLower

/-- Python `sub in s` (substring containment). -/
def pyContains (s sub : Str) : Bool := sub.isEmpty || (splitFirst sub s).isSome

-- Sanity checks for the string layer.
example : pySplitlines (strLit "a\nb") = [strLit "a", strLit "b"] := by decide
example : pySplitlines (strLit "a\r\nb\n") = [strLit "a", strLit "b"] := by decide
example : pySplitlines (strLit "") = [] := by decide
example : pySplit (strLit "/") (strLit "a//b") =
    [strLit "a", strLit "", strLit "b"] := by decide
example : pySplit (strLit "github.com/") (strLit "https://github.com/foo/bar") =
    [strLit "https://", strLit "foo/bar"] := by decide
example : pyStripChars ['/'] (strLit "/a/b/") = strLit "a/b" := by decide
example : joinSep (strLit "/") [strLit "a", strLit "b"] = strLit "a/b" := by decide
example : pyStrip (strLit "  hi  ") = strLit "hi" := by decide
example : pyContains (strLit "API rate limit exceeded") (strLit "rate limit") = true := by
  decide

/-!
## Markdown extraction (generate_awesome_docker_stars.py)
-/

/-- One parsed repository reference (the `RepoEntry` dataclass). -/
structure RepoEntry where
  name : Str
  slug : Str
  url : Str
  category : Str
  note : Str
  stars : Option Int := none
deriving DecidableEq, Repr

/-- The character class `[a-zA-Z0-9_]` of the emoji-shortcode pattern. -/
def isWordChar (c : Char) : Bool :=
  ('a' ≤ c ∧ c ≤ 'z') ∨ ('A' ≤ c ∧ c ≤ 'Z') ∨ ('0' ≤ c ∧ c ≤ '9') ∨ c = '_'

/-- The substitution `re.sub(r"\s+", " ", text)`: each maximal run of
whitespace becomes a single space.  The flag records whether the previous
character belonged to a whitespace run. -/
def collapseWS : Bool → Str → Str
  | _, [] => []
  | prev, c :: r =>
    if isPySpace c then
      if prev then collapseWS true r else ' ' :: collapseWS true r
    else c :: collapseWS false r

/-- Fuelled worker for `subLinks`.  The substitution
`re.sub(r"\[(@?[^\]]+)\]\([^)]+\)", r"\1", text)` scans left to right; at
each position the greedy pattern matches a maximal non-`]` run as the
label (the optional `@` is part of the captured group, so the replacement
is the whole run either way), then `](`, a maximal non-`)` run, and `)`.
On a match the whole link is replaced by the label and scanning resumes
after it; otherwise scanning advances one character.  Every step consumes
at least one character, so fuel `length + 1` is always sufficient. -/
def subLinksF : Nat → Str → Str
  | 0, s => s
  | _ + 1, [] => []
  | f + 1, '[' :: r =>
    let lbl := r.takeWhile (· ≠ ']')
    if lbl.isEmpty then '[' :: subLinksF f r
    else
      match r.drop lbl.length with
      | ']' :: '(' :: r2 =>
        let u := r2.takeWhile (· ≠ ')')
        if u.isEmpty then '[' :: subLinksF f r
        else
          match r2.drop u.length with
          | ')' :: r3 => lbl ++ subLinksF f r3
          | _ => '[' :: subLinksF f r
      | _ => '[' :: subLinksF f r
  | f + 1, c :: r => c :: subLinksF f r

/-- Flatten markdown links to their label. -/
def subLinks (s : Str) : Str := subLinksF (s.length + 1) s

/-- Fuelled worker for `subEmoji`: `re.sub(r"[:;][a-zA-Z0-9_]+:", "", text)`.
A match is `:` or `;`, a maximal nonempty word-character run, then `:`;
matches are deleted, scanning resumes after them (non-overlapping). -/
def subEmojiF : Nat → Str → Str
  | 0, s => s
  | _ + 1, [] => []
  | f + 1, c :: r =>
    if c = ':' ∨ c = ';' then
      let w := r.takeWhile isWordChar
      if w.isEmpty then c :: subEmojiF f r
      else
        match r.drop w.length with
        | ':' :: r2 => subEmojiF f r2
        | _ => c :: subEmojiF f r
    else c :: subEmojiF f r

/-- Remove emoji shortcodes. -/
def subEmoji (s : Str) : Str := subEmojiF (s.length + 1) s

/-- The `_clean_note` helper: collapse whitespace, trim surrounding
space/dash/colon punctuation, flatten links, drop emoji shortcodes, strip. -/
def clean_note (t : Str) : Str :=
  pyStrip (subEmoji (subLinks (pyStripChars [' ', '-', '–', '—', ':'] (collapseWS false t))))

/-- The heading pattern `re.match(r"^(#{1,6})\s+(.*)$", line)`, returning
the level and the stripped title (`header_match.group(2).strip()`).  With
seven or more `#` the required `\s+` always sees a `#`, so there is no
match.  `\s+` is greedy and `.*` matches the rest of the line. -/
def parseHeading (line : Str) : Option (Nat × Str) :=
  let hashes := line.takeWhile (· = '#')
  if 1 ≤ hashes.length ∧ hashes.length ≤ 6 then
    match line.drop hashes.length with
    | [] => none
    | c :: rest =>
      if isPySpace c then some (hashes.length, pyStrip (rest.dropWhile isPySpace))
      else none
  else none

/-- The URL group `(https?://github.com/[^)]+)` of the bullet pattern.
The `.` of `github.com` is the regex wildcard, so it consumes one
arbitrary character.  Returns the matched group and the rest of the line
(which the bullet pattern requires to start with `)`). -/
def parseGithubUrl (s : Str) : Option (Str × Str) :=
  if (strLit "http").isPrefixOf s then
    let s1 := s.drop 4
    let afterScheme : Option Nat :=
      if (strLit "s://github").isPrefixOf s1 then some 10
      else if (strLit "://github").isPrefixOf s1 then some 9
      else none
    match afterScheme with
    | none => none
    | some k =>
      match s1.drop k with
      | [] => none
      | _ :: s3 =>
        if (strLit "com/").isPrefixOf s3 then
          let run := (s3.drop 4).takeWhile (· ≠ ')')
          if run.isEmpty then none
          else
            let n := 4 + k + 1 + 4 + run.length
            some (s.take n, s.drop n)
        else none
  else none

/-- The bullet pattern
`re.match(r"^-+\s*\[([^\]]+)\]\((https?://github.com/[^)]+)\)\s*(.*)$", line)`,
returning the groups (name, url, tail).  Each greedy piece is followed by a
character it can never match, so the match is deterministic. -/
def parseBullet (line : Str) : Option (Str × Str × Str) :=
  let dashes := line.takeWhile (· = '-')
  if dashes.isEmpty then none
  else
    match (line.drop dashes.length).dropWhile isPySpace with
    | '[' :: r2 =>
      let name := r2.takeWhile (· ≠ ']')
      if name.isEmpty then none
      else
        match r2.drop name.length with
        | ']' :: '(' :: r3 =>
          match parseGithubUrl r3 with
          | none => none
          | some ur =>
            match ur.2 with
            | ')' :: r5 => some (name, ur.1, r5.dropWhile isPySpace)
            | _ => none
        | _ => none
    | _ => none

/-- The slug computation of `parse_repos` (lines 76-80):
`url.split("github.com/")[1].split("/?")[0].split("#")[0].strip("/")`,
then keep the first two `/`-separated segments, discarding the bullet when
fewer than two remain.  The outer `none` models the `IndexError` that the
indexing `[1]` raises when the literal text `github.com/` does not occur in
the url (possible because the `.` of the pattern `github.com` is a
wildcard); `some none` models a discarded bullet. -/
def slugOfUrl (url : Str) : Option (Option Str) :=
  match (pySplit (strLit "github.com/") url).get? 1 with
  | none => none
  | some x =>
    let x1 := (pySplit (strLit "/?") x).headD []
    let x2 := (pySplit (strLit "#") x1).headD []
    let s := pyStripChars ['/'] x2
    let parts := pySplit (strLit "/") s
    if parts.length < 2 then some none
    else some (some (joinSep (strLit "/") (parts.take 2)))

/-- The `_current_category` helper: join all open headings except the
outermost with " / "; empty when at most one heading is open. -/
def currentCategory (headings : List Str) : Str :=
  if headings.length ≤ 1 then [] else joinSep (strLit " / ") headings.tail

/-- Build the `RepoEntry` appended by `parse_repos`. -/
def mkEntry (name slug category note : Str) : RepoEntry :=
  { name := pyStrip name, slug := slug,
    url := strLit "https://github.com/" ++ slug,
    category := category, note := note, stars := none }

/-- The loop state of `parse_repos`: the heading stack, the keys of the
`seen` dictionary in insertion order, and the output list. -/
structure ParseState where
  headings : List Str
  seen : List Str
  entries : List RepoEntry
deriving DecidableEq, Repr

def initState : ParseState := ⟨[], [], []⟩

/-- One iteration of the `parse_repos` loop on a raw line.  `none` models
the uncaught `IndexError` of the slug computation. -/
def parseStep (st : ParseState) (raw : Str) : Option ParseState :=
  let line := pyStrip raw
  match parseHeading line with
  | some lt => some { st with headings := st.headings.take (lt.1 - 1) ++ [lt.2] }
  | none =>
    match parseBullet line with
    | none => some st
    | some nut =>
      match slugOfUrl nut.2.1 with
      | none => none
      | some none => some st
      | some (some slug) =>
        if st.seen.contains slug then some st
        else
          some { st with
            seen := st.seen ++ [slug],
            entries := st.entries ++
              [mkEntry nut.1 slug (currentCategory st.headings) (clean_note nut.2.2)] }

/-- `parse_repos(markdown)`. -/
def parse_repos (md : Str) : Option (List RepoEntry) :=
  ((pySplitlines md).foldlM parseStep initState).map ParseState.entries

/-- Specification device for the deduplication claim: the same scan with
the `seen` check removed, producing every repository occurrence (with the
fields it would get) in document order. -/
structure ScanState where
  headings : List Str
  entries : List RepoEntry
deriving DecidableEq, Repr

/-- One iteration of the occurrence scan (no deduplication). -/
def scanStep (st : ScanState) (raw : Str) : Option ScanState :=
  let line := pyStrip raw
  match parseHeading line with
  | some lt => some { st with headings := st.headings.take (lt.1 - 1) ++ [lt.2] }
  | none =>
    match parseBullet line with
    | none => some st
    | some nut =>
      match slugOfUrl nut.2.1 with
      | none => none
      | some none => some st
      | some (some slug) =>
        some { st with
          entries := st.entries ++
            [mkEntry nut.1 slug (currentCategory st.headings) (clean_note nut.2.2)] }

/-- All repository occurrences of the document, without deduplication. -/
def parse_occurrences (md : Str) : Option (List RepoEntry) :=
  ((pySplitlines md).foldlM scanStep ⟨[], []⟩).map ScanState.entries

/-- Keep the first entry for each slug, dropping later duplicates without
modifying the kept entry (the ordered-dict first-wins policy). -/
def dedupBySlug (seen : List Str) : List RepoEntry → List RepoEntry
  | [] => []
  | e :: r =>
    if seen.contains e.slug then dedupBySlug seen r
    else e :: dedupBySlug (seen ++ [e.slug]) r

-- The end-to-end example of the spec: duplicates collapse to the first
-- occurrence and the category is the subheading.
example :
    parse_repos (strLit "# Awesome\n## DBs\n- [foo/bar](https://github.com/foo/bar) - a database\n- [foo/bar](https://github.com/foo/bar/issues) dup\n") =
    some [{ name := strLit "foo/bar", slug := strLit "foo/bar",
            url := strLit "https://github.com/foo/bar",
            category := strLit "DBs", note := strLit "a database" }] := by decide

/-!
## GitHub API helpers (get_stars.py)

Python float arithmetic appears in two places: `stars/1000` inside the
`.1f` f-string of `format_stars`, and `delta / 60` inside
`rate_limit_message`.  CPython's true division of two ints produces the
binary64 double nearest to the exact quotient (ties to even), and `.1f`
formatting correctly rounds that double to one decimal digit (ties to
even).  Both steps are embedded exactly over `Rat`.
-/

/-- Round a rational to the nearest integer, ties to even. -/
def rhe (q : ℚ) : ℤ :=
  let f := ⌊q⌋
  let r := q - f
  if r < 1 / 2 then f
  else if 1 / 2 < r then f + 1
  else if f % 2 = 0 then f else f + 1

/-- Fuelled base-2 logarithm on `Nat`; fuel `n` always suffices. -/
def log2F : Nat → Nat → Nat
  | 0, _ => 0
  | f + 1, n => if n < 2 then 0 else log2F f (n / 2) + 1

/-- `⌊log₂ n⌋` for `1 ≤ n` (and 0 at 0). -/
def natLog2 (n : Nat) : Nat := log2F n n

/-- For `0 < q`, the integer `k` with `2 ^ k ≤ q < 2 ^ (k + 1)`. -/
def floorLog2 (q : ℚ) : ℤ :=
  if 1 ≤ q then (natLog2 ⌊q⌋.toNat : ℤ)
  else
    let t := natLog2 ⌊q⁻¹⌋.toNat
    if q * 2 ^ t = 1 then -(t : ℤ) else -(t : ℤ) - 1

/-- Correctly round a nonnegative rational to the binary64 grid: the
significand gets 53 bits and the rounding is to nearest, ties to even.
Negative values and subnormals do not occur in the scripts' arithmetic;
results at or above 2 ^ 1024 stand for the overflow to infinity and are
recognised by the formatter. -/
def roundToDouble (q : ℚ) : ℚ :=
  if q ≤ 0 then 0
  else
    let k := floorLog2 q
    (rhe (q * 2 ^ (52 - k)) : ℚ) * 2 ^ (k - 52)

/-- Python `int(x)` for a float `x`: truncate toward zero. -/
def pyTruncF (x : ℚ) : ℤ := if 0 ≤ x then ⌊x⌋ else -⌊-x⌋

/-- Python `str(n)` for an int. -/
def intStr (n : ℤ) : Str := (toString n).data

/-- Python `str(n)` for a nonnegative int. -/
def natStr (n : ℕ) : Str := (toString n).data

/-- Python `f"{x:.1f}"` for a nonnegative binary64 value `x` (given by its
exact rational value): correctly round `x` to one decimal digit, ties to
even; infinities print as `inf`. -/
def fmtFixed1 (x : ℚ) : Str :=
  if ((2 ^ 1024 : ℕ) : ℚ) ≤ x then strLit "inf"
  else
    let t := rhe (10 * x)
    intStr (t / 10) ++ '.' :: intStr (t % 10)

/-- `format_stars(stars)`: counts at or above 1000 render as the `.1f`
formatting of the float quotient `stars/1000` followed by `k`; smaller
counts render as the plain integer. -/
def format_stars (stars : ℤ) : Str :=
  if 1000 ≤ stars then
    fmtFixed1 (roundToDouble ((stars : ℚ) / 1000)) ++ ['k']
  else intStr stars

/-- `rate_limit_message(reset_at)`.  The current time is the ambient input
`now` (the `int(time.time())` call).  A `None` or zero `reset_at` is falsy
in Python, so both produce the generic message; otherwise the minute count
is `int(delta / 60)` for `delta = max(0, reset_at - now)`, computed with
float division. -/
def rate_limit_message (reset_at : Option ℤ) (now : ℤ) : Str :=
  match reset_at with
  | some r =>
    if r ≠ 0 then
      let delta : ℤ := max 0 (r - now)
      let minutes : ℤ := pyTruncF (roundToDouble ((delta : ℚ) / 60))
      strLit "GitHub rate limit exceeded. Try again in ~" ++ intStr minutes ++
        strLit " minutes."
    else strLit "GitHub rate limit exceeded. Try again later or provide a PAT."
  | none => strLit "GitHub rate limit exceeded. Try again later or provide a PAT."

/-- The exception values of the API layer: `RateLimitError` (a subclass of
`GitHubAPIError`, carrying the optional reset time) and any other
`GitHubAPIError`.  `errStr` is Python's `str(err)`, the message the
exception was constructed with. -/
inductive PyErr where
  | rateLimit (msg : Str) (resetAt : Option ℤ)
  | api (msg : Str)
deriving DecidableEq, Repr

/-- Python `str(err)`. -/
def PyErr.errStr : PyErr → Str
  | .rateLimit m _ => m
  | .api m => m

/-- An HTTP error response as `_handle_error` sees it: the status code,
the `message` field extracted from the JSON body (or `str(error)` when the
body does not parse — either way an arbitrary server-controlled string),
and the raw `X-RateLimit-Reset` header when present. -/
structure HTTPErrorInfo where
  code : ℕ
  message : Str
  resetHeader : Option Str
deriving DecidableEq, Repr

/-- Python `str.isdigit` on the ASCII decimal digits (the reset headers
the script meets are ASCII decimal timestamps). -/
def isDigits (s : Str) : Bool := !s.isEmpty && s.all (fun c => '0' ≤ c ∧ c ≤ '9')

/-- Numeric value of an ASCII digit string (Python `int(s)`). -/
def natOfDigits (s : Str) : ℕ := s.foldl (fun a c => a * 10 + (c.toNat - '0'.toNat)) 0

/-- `_handle_error`: read `reset_at` from the `X-RateLimit-Reset` header
when it is a digit string; raise `RateLimitError` for an HTTP 403 whose
message mentions the rate limit (case-insensitively); otherwise raise a
generic `GitHubAPIError` carrying the message and the status code. -/
def handle_error (e : HTTPErrorInfo) : PyErr :=
  let reset_at : Option ℤ :=
    match e.resetHeader with
    | some h => if isDigits h then some (natOfDigits h) else none
    | none => none
  if e.code = 403 ∧ pyContains (pyLower e.message) (strLit "rate limit") then
    .rateLimit e.message reset_at
  else
    .api (e.message ++ strLit " (HTTP " ++ natStr e.code ++ strLit ")")

deriving instance DecidableEq for Except

/-- The netloc and path that `urllib.parse.urlparse` extracts from the
absolute `scheme://netloc/path` URLs this code meets: netloc is the text
between `://` and the next `/`, `?` or `#`; the path runs from that `/`
up to the first `?` or `#`. -/
def urlNetlocPath (u : Str) : Str × Str :=
  match splitFirst (strLit "://") u with
  | none => ([], u)
  | some ba =>
    let netloc := ba.2.takeWhile (fun c => c ≠ '/' ∧ c ≠ '?' ∧ c ≠ '#')
    let path := (ba.2.drop netloc.length).takeWhile (fun c => c ≠ '?' ∧ c ≠ '#')
    (netloc, path)

/-- `normalize_slug(repo)`: URLs are reduced to the first two path
segments after a host check; a bare slug must contain exactly one `/`.
`Except.error` models the raised `ValueError`. -/
def normalize_slug (repo : Str) : Except Str Str :=
  if pyContains repo (strLit "://") then
    let np := urlNetlocPath repo
    if pyLower np.1 ≠ strLit "github.com" then
      .error (strLit "Unsupported host in repo URL: " ++ repo)
    else
      let parts := pySplit (strLit "/") (pyStripChars ['/'] np.2)
      if parts.length < 2 then .error (strLit "Invalid GitHub URL: " ++ repo)
      else .ok (joinSep (strLit "/") (parts.take 2))
  else if countChar '/' repo ≠ 1 then .error (strLit "Invalid repo slug: " ++ repo)
  else .ok repo

-- Sanity checks: the spec's format examples and small probes of the
-- numeric model.  Batteries seals the kernel-reducible `Rat` operations
-- behind `irreducible`; concrete evaluations open them locally.
section
attribute [local semireducible] Rat.mul Rat.add Rat.sub Rat.inv
example : format_stars 999 = strLit "999" := by decide
example : format_stars 1000 = strLit "1.0k" := by decide
example : format_stars 12345 = strLit "12.3k" := by decide
example : rate_limit_message (some 1300) 1000 =
    strLit "GitHub rate limit exceeded. Try again in ~5 minutes." := by decide
example : rate_limit_message none 7 =
    strLit "GitHub rate limit exceeded. Try again later or provide a PAT." := by decide
example : normalize_slug (strLit "foo/bar") = .ok (strLit "foo/bar") := by decide
example : normalize_slug (strLit "https://github.com/foo/bar/issues") =
    .ok (strLit "foo/bar") := by decide
-- Ties and carries land exactly where CPython's binary64 arithmetic puts
-- them: 1.05 rounds up (its double is slightly above the tie), 2.05 and
-- 1.95 round down (their doubles are slightly below), and 999999/1000
-- rounds to 1000.0.
example : format_stars 1050 = strLit "1.1k" := by decide
example : format_stars 2050 = strLit "2.0k" := by decide
example : format_stars 1950 = strLit "1.9k" := by decide
example : format_stars 999999 = strLit "1000.0k" := by decide
end

/-!
## Star resolution and rendering

`fetch_star_data` drives `fetch_repo_stars` over the parsed entries.  The
network call is abstracted into an oracle giving, per (slug, token), either
a star count or the raised `GitHubAPIError`; the loop logic around it is
translated from the source.
-/

/-- The observable outcome of one `fetch_repo_stars(slug, token)` call. -/
inductive FetchOutcome where
  | ok (stars : ℤ)
  | err (e : PyErr)
deriving DecidableEq, Repr

/-- The abstracted network: what `fetch_repo_stars` does for a given slug
and token. -/
abbrev Oracle := Str → Option Str → FetchOutcome

/-- The dispatch test `"Not Found" in str(err)` of `fetch_star_data`. -/
def isNotFoundMsg (e : PyErr) : Bool := pyContains e.errStr (strLit "Not Found")

/-- The dispatch test `"Bad credentials" in str(err)` of `fetch_star_data`. -/
def isBadCredMsg (e : PyErr) : Bool := pyContains e.errStr (strLit "Bad credentials")

/-- Fuelled worker for the `while True` loop of `fetch_star_data` around a
single entry.  The loop repeats only when the token index advances while
staying below `tokens.length`, so fuel `tokens.length + 1` always
suffices (`fetchOne_eq` below); fuel 0 is never reached. -/
def fetchOneF (oracle : Oracle) (slug : Str) (tokens : List (Option Str)) :
    Nat → Nat → Except PyErr (ℤ × Nat)
  | 0, _ => .error (.api [])
  | fuel + 1, idx =>
    let token := (tokens.get? idx).getD none
    match oracle slug token with
    | .ok n => .ok (n, idx)
    | .err e =>
      if isNotFoundMsg e then .ok (0, idx)
      else if isBadCredMsg e ∧ idx + 1 < tokens.length then
        fetchOneF oracle slug tokens fuel (idx + 1)
      else .error e

/-- Resolve one entry starting from token index `idx`: returns the star
count stored into the entry and the token index left for the next entry,
or the propagated fatal error. -/
def fetchOne (oracle : Oracle) (slug : Str) (tokens : List (Option Str))
    (idx : Nat) : Except PyErr (ℤ × Nat) :=
  fetchOneF oracle slug tokens (tokens.length + 1) idx

/-- The `for entry in entries` loop of `fetch_star_data`: resolve entries
in order, threading the token index; a fatal error aborts the rest. -/
def fetchAll (oracle : Oracle) (tokens : List (Option Str)) :
    Nat → List RepoEntry → Except PyErr (List RepoEntry × Nat)
  | idx, [] => .ok ([], idx)
  | idx, e :: rest =>
    match fetchOne oracle e.slug tokens idx with
    | .error err => .error err
    | .ok ni =>
      match fetchAll oracle tokens ni.2 rest with
      | .error err => .error err
      | .ok ri => .ok ({ e with stars := some ni.1 } :: ri.1, ri.2)

/-- `fetch_star_data(entries, tokens)`: an empty token list is replaced by
`[None]` (anonymous lookups); the result is the entry list with `stars`
resolved, or the propagated fatal exception. -/
def fetch_star_data (oracle : Oracle) (entries : List RepoEntry)
    (tokens0 : List (Option Str)) : Except PyErr (List RepoEntry) :=
  let tokens := if tokens0.isEmpty then [none] else tokens0
  (fetchAll oracle tokens 0 entries).map Prod.fst

/-- The sort key `lambda e: e.stars or 0` (`None` and `0` are falsy). -/
def keyE (e : RepoEntry) : ℤ := e.stars.getD 0

/-- One table row of `render_markdown` (1-based rank). -/
def rowLine (idx : Nat) (e : RepoEntry) : Str :=
  strLit "| " ++ natStr idx ++ strLit " | [" ++ e.slug ++ strLit "](" ++ e.url ++
  strLit ") | " ++ format_stars (keyE e) ++ strLit " | " ++ e.category ++
  strLit " | " ++ e.note ++ strLit " |"

def headerRow : Str := strLit "| Rank | Repository | Stars | Category | Note |"

def sepRow : Str := strLit "| --- | --- | --- | --- | --- |"

/-- `render_markdown(entries)`: header, separator, one row per entry with
1-based ranks, newline-joined with a trailing newline. -/
def render_markdown (entries : List RepoEntry) : Str :=
  joinSep (strLit "\n")
    (headerRow :: sepRow :: (entries.enumFrom 1).map (fun ie => rowLine ie.1 ie.2)) ++
  strLit "\n"

/-- The sort `entries.sort(key=lambda e: e.stars or 0, reverse=True)` of
`main` (line 157).  CPython's sort is stable and `reverse=True` reverses
comparisons, not the list, so equal keys keep their input order; insertion
sort under this relation computes the same unique stable descending
arrangement (see the sortedness, stability and permutation theorems). -/
def starSort (entries : List RepoEntry) : List RepoEntry :=
  List.insertionSort (fun a b => keyE b ≤ keyE a) entries

/-- The observable end state of `main`: a written report, a `SystemExit`
with a printed message and exit status 1, or an unhandled traceback
(also a nonzero exit, no report written). -/
inductive MainOutcome where
  | wrote (report : Str)
  | exited (msg : Str)
  | crashed
deriving DecidableEq, Repr

/-- `main()` after reading the input file: parse, resolve stars with the
discovered tokens, convert an escaping `RateLimitError` into
`SystemExit(rate_limit_message(err.reset_at))` (no report file written),
let any other error propagate (no report either), otherwise sort and
write the rendered report. -/
def mainModel (oracle : Oracle) (md : Str) (tokens : List (Option Str))
    (now : ℤ) : MainOutcome :=
  match parse_repos md with
  | none => .crashed
  | some entries =>
    match fetch_star_data oracle entries tokens with
    | .error (.rateLimit _ reset) => .exited (rate_limit_message reset now)
    | .error (.api _) => .crashed
    | .ok resolved => .wrote (render_markdown (starSort resolved))

-- Sanity: a two-token scenario where the first token is rejected.
example :
    fetchOne (fun _ tok => if tok = some (strLit "bad")
        then .err (.api (strLit "Bad credentials (HTTP 401)")) else .ok 7)
      (strLit "foo/bar") [some (strLit "bad"), some (strLit "good")] 0 =
    .ok (7, 1) := by decide


/-!
## Properties of the string layer
-/

theorem isPrefixOf_singleton {c d : Char} {r : Str} :
    List.isPrefixOf [c] (d :: r) = (c == d) := by
  simp [List.isPrefixOf]

theorem splitFirst_append {sep : Str} :
    ∀ {s b a : Str}, splitFirst sep s = some (b, a) → s = b ++ sep ++ a := by
  intro s
  induction s with
  | nil => intro b a h; simp [splitFirst] at h
  | cons c r ih =>
    intro b a h
    simp only [splitFirst] at h
    split at h
    · rename_i hpre
      obtain ⟨t, ht⟩ := List.isPrefixOf_iff_prefix.mp hpre
      simp only [Option.some.injEq, Prod.mk.injEq] at h
      obtain ⟨hb, ha⟩ := h
      subst hb
      rw [← ha, ← ht, List.drop_left]
      simp
    · cases hsf : splitFirst sep r with
      | none => rw [hsf] at h; exact Option.noConfusion h
      | some ba =>
        rw [hsf] at h
        simp only [Option.map_some', Option.some.injEq, Prod.mk.injEq] at h
        obtain ⟨hb, ha⟩ := h
        subst ha
        rw [← hb]
        have := ih hsf
        simp [this]

theorem splitFirst_shorter {sep : Str} (hsep : sep ≠ []) :
    ∀ {s b a : Str}, splitFirst sep s = some (b, a) → a.length < s.length := by
  intro s
  induction s with
  | nil => intro b a h; simp [splitFirst] at h
  | cons c r ih =>
    intro b a h
    simp only [splitFirst] at h
    split at h
    · simp only [Option.some.injEq, Prod.mk.injEq] at h
      obtain ⟨hb, ha⟩ := h
      rw [← ha, List.length_drop]
      have : 0 < sep.length := List.length_pos.mpr hsep
      simp only [List.length_cons]
      omega
    · cases hsf : splitFirst sep r with
      | none => rw [hsf] at h; exact Option.noConfusion h
      | some ba =>
        rw [hsf] at h
        simp only [Option.map_some', Option.some.injEq, Prod.mk.injEq] at h
        obtain ⟨hb, ha⟩ := h
        have := ih (b := ba.1) (a := ba.2) (by simp [hsf])
        subst ha
        simp only [List.length_cons]
        omega

theorem pySplitF_adequate {sep : Str} (hsep : sep ≠ []) :
    ∀ (f : Nat), ∀ {g : Nat} {s : Str}, s.length < f → s.length < g →
      pySplitF sep f s = pySplitF sep g s := by
  intro f
  induction f with
  | zero => intro g s hf; omega
  | succ f ih =>
    intro g s hf hg
    cases g with
    | zero => omega
    | succ g =>
      simp only [pySplitF]
      cases hsf : splitFirst sep s with
      | none => rfl
      | some ba =>
        have hlt := splitFirst_shorter hsep hsf
        show ba.1 :: pySplitF sep f ba.2 = ba.1 :: pySplitF sep g ba.2
        rw [@ih g ba.2 (by omega) (by omega)]

theorem pySplit_eq {sep : Str} (hsep : sep ≠ []) (s : Str) :
    pySplit sep s = match splitFirst sep s with
      | none => [s]
      | some ba => ba.1 :: pySplit sep ba.2 := by
  show pySplitF sep (s.length + 1) s = _
  simp only [pySplitF]
  cases hsf : splitFirst sep s with
  | none => rfl
  | some ba =>
    have hlt := splitFirst_shorter hsep hsf
    show ba.1 :: pySplitF sep s.length ba.2 = ba.1 :: pySplit sep ba.2
    rw [@pySplitF_adequate sep hsep s.length (ba.2.length + 1) ba.2 (by omega) (by omega)]
    rfl

theorem pySplit_ne_nil {sep s : Str} (hsep : sep ≠ []) : pySplit sep s ≠ [] := by
  rw [pySplit_eq hsep]
  cases hsf : splitFirst sep s <;> simp

theorem splitFirst_char_none {c : Char} :
    ∀ {s : Str}, splitFirst [c] s = none → c ∉ s := by
  intro s
  induction s with
  | nil => intro _; simp
  | cons d r ih =>
    intro h
    simp only [splitFirst, isPrefixOf_singleton] at h
    split at h
    · exact Option.noConfusion h
    · rename_i hpre
      have hne : ¬ c = d := by simpa using hpre
      cases hsf : splitFirst [c] r with
      | none =>
        intro hmem
        rcases List.mem_cons.mp hmem with h1 | h2
        · exact hne h1
        · exact ih hsf h2
      | some ba => rw [hsf] at h; exact Option.noConfusion h

theorem splitFirst_char_some {c : Char} :
    ∀ {s b a : Str}, splitFirst [c] s = some (b, a) → s = b ++ c :: a ∧ c ∉ b := by
  intro s
  induction s with
  | nil => intro b a h; simp [splitFirst] at h
  | cons d r ih =>
    intro b a h
    simp only [splitFirst, isPrefixOf_singleton] at h
    split at h
    · rename_i hpre
      have hcd : c = d := by simpa using hpre
      subst hcd
      simp only [Option.some.injEq, Prod.mk.injEq] at h
      obtain ⟨hb, ha⟩ := h
      subst hb
      refine ⟨?_, by simp⟩
      rw [← ha]
      rfl
    · rename_i hpre
      have hne : ¬ c = d := by simpa using hpre
      cases hsf : splitFirst [c] r with
      | none => rw [hsf] at h; exact Option.noConfusion h
      | some ba =>
        rw [hsf] at h
        simp only [Option.map_some', Option.some.injEq, Prod.mk.injEq] at h
        obtain ⟨hb, ha⟩ := h
        obtain ⟨hr, hcb⟩ := ih (b := ba.1) (a := ba.2) (by simp [hsf])
        subst ha
        rw [← hb]
        constructor
        · simp [hr]
        · intro hmem
          rcases List.mem_cons.mp hmem with h1 | h2
          · exact hne h1
          · exact hcb h2

theorem splitFirst_char_of_append {c : Char} {p1 : Str} :
    ∀ {p0 : Str}, c ∉ p0 → splitFirst [c] (p0 ++ c :: p1) = some (p0, p1) := by
  intro p0
  induction p0 with
  | nil =>
    intro _
    simp [splitFirst, isPrefixOf_singleton]
  | cons d r ih =>
    intro h0
    have hd : ¬ (c = d) := fun he => h0 (he ▸ List.mem_cons_self d r)
    have hr : c ∉ r := fun hm => h0 (List.mem_cons_of_mem d hm)
    simp only [List.cons_append, splitFirst, isPrefixOf_singleton]
    rw [if_neg (by simpa using hd)]
    simp only [List.append_eq]
    rw [ih hr]
    rfl

theorem pySplit_char_no_sep {c : Char} {s : Str} (h : c ∉ s) : pySplit [c] s = [s] := by
  rw [pySplit_eq (by simp)]
  cases hsf : splitFirst [c] s with
  | none => rfl
  | some ba =>
    exact absurd ((splitFirst_char_some hsf).1 ▸ h) (by simp)

theorem pySplit_char_join {c : Char} {p0 p1 : Str} (h0 : c ∉ p0) (h1 : c ∉ p1) :
    pySplit [c] (p0 ++ c :: p1) = [p0, p1] := by
  rw [pySplit_eq (by simp), splitFirst_char_of_append h0]
  simp [pySplit_char_no_sep h1]

theorem pySplit_char_parts {c : Char} (s : Str) :
    ∀ p ∈ pySplit [c] s, c ∉ p := by
  rw [pySplit_eq (by simp)]
  cases hsf : splitFirst [c] s with
  | none =>
    intro p hp
    have : p = s := by simpa using hp
    exact this ▸ splitFirst_char_none hsf
  | some ba =>
    intro p hp
    rcases List.mem_cons.mp hp with h1 | h2
    · exact h1 ▸ (splitFirst_char_some hsf).2
    · exact pySplit_char_parts ba.2 p h2
termination_by s.length
decreasing_by
  exact splitFirst_shorter (by simp) hsf

theorem pySplit_char_cons_head {c d : Char} {s' : Str} (hne : ¬ d = c) :
    ∃ b r, pySplit [c] (d :: s') = (d :: b) :: r := by
  rw [pySplit_eq (by simp)]
  simp only [splitFirst, isPrefixOf_singleton]
  rw [if_neg (by simpa using fun he => hne he.symm)]
  cases hsf : splitFirst [c] s' with
  | none => exact ⟨s', [], rfl⟩
  | some ba => exact ⟨ba.1, pySplit [c] ba.2, rfl⟩

/-- The text before the first occurrence of `pat` (all of `s` when `pat`
does not occur): the reading of Python's `s.split(pat)[0]`. -/
def cutAtFirst (pat s : Str) : Str :=
  match splitFirst pat s with
  | none => s
  | some ba => ba.1

theorem pySplit_headD {sep : Str} (hsep : sep ≠ []) (s : Str) :
    (pySplit sep s).headD [] = cutAtFirst sep s := by
  rw [pySplit_eq hsep]
  unfold cutAtFirst
  cases hsf : splitFirst sep s <;> rfl

theorem pySplit_get1 {sep : Str} (hsep : sep ≠ []) (s : Str) :
    (pySplit sep s).get? 1 = (splitFirst sep s).map (fun ba => cutAtFirst sep ba.2) := by
  rw [pySplit_eq hsep]
  cases hsf : splitFirst sep s with
  | none => rfl
  | some ba =>
    simp only [Option.map_some']
    show (pySplit sep ba.2).get? 0 = some (cutAtFirst sep ba.2)
    rw [pySplit_eq hsep]
    unfold cutAtFirst
    cases hsf2 : splitFirst sep ba.2 <;> rfl

theorem dropWhile_cons_head {α : Type} {p : α → Bool} :
    ∀ {s : List α} {d : α} {t : List α}, s.dropWhile p = d :: t → p d = false := by
  intro s
  induction s with
  | nil => intro d t h; simp at h
  | cons c r ih =>
    intro d t h
    rw [List.dropWhile_cons] at h
    split at h
    · exact ih h
    · rename_i hpc
      cases h
      simpa using hpc

theorem pyStripP_head_not {p : Char → Bool} {s : Str} {d : Char} {t : Str}
    (h : pyStripP p s = d :: t) : p d = false := by
  unfold pyStripP at h
  have hsuf : (s.dropWhile p).reverse.dropWhile p <:+ (s.dropWhile p).reverse :=
    List.dropWhile_suffix p
  have hpre : ((s.dropWhile p).reverse.dropWhile p).reverse <+: s.dropWhile p := by
    have := List.reverse_prefix.mpr hsuf
    simpa using this
  obtain ⟨u, hu⟩ := hpre
  rw [h] at hu
  exact dropWhile_cons_head hu.symm

/-- Every slug that `slugOfUrl` produces is `p0 ++ "/" ++ p1` with `/`-free
pieces and nonempty `p0`. -/
theorem slugOfUrl_structure {url slug : Str} (h : slugOfUrl url = some (some slug)) :
    ∃ p0 p1 : Str, slug = p0 ++ '/' :: p1 ∧ '/' ∉ p0 ∧ '/' ∉ p1 ∧ p0 ≠ [] := by
  unfold slugOfUrl at h
  cases hx : (pySplit (strLit "github.com/") url).get? 1 with
  | none => rw [hx] at h; exact Option.noConfusion h
  | some x =>
    rw [hx] at h
    dsimp only at h
    have hslash : strLit "/" = ['/'] := rfl
    rw [hslash] at h
    set S := pyStripChars ['/'] ((pySplit (strLit "#")
      ((pySplit (strLit "/?") x).headD [])).headD []) with hS
    split at h
    · simp at h
    · rename_i hlen
      simp only [Option.some.injEq] at h
      cases hP : pySplit ['/'] S with
      | nil => exact absurd hP (pySplit_ne_nil (by simp))
      | cons p0 rest =>
        cases rest with
        | nil => rw [hP] at hlen; simp at hlen
        | cons p1 rest2 =>
          refine ⟨p0, p1, ?_, ?_, ?_, ?_⟩
          · rw [hP] at h
            rw [← h]
            show joinSep ['/'] [p0, p1] = p0 ++ '/' :: p1
            show p0 ++ ['/'] ++ joinSep ['/'] [p1] = p0 ++ '/' :: p1
            simp [joinSep]
          · exact pySplit_char_parts S p0 (by rw [hP]; simp)
          · exact pySplit_char_parts S p1 (by rw [hP]; simp)
          · cases hSc : S with
            | nil =>
              rw [hSc] at hP
              rw [show pySplit ['/'] [] = [[]] from by
                rw [pySplit_eq (by simp)]; rfl] at hP
              simp at hP
            | cons d S' =>
              have hd : ¬ d = '/' := by
                have h2 : List.contains ['/'] d = false :=
                  pyStripP_head_not (p := fun c => List.contains ['/'] c)
                    (s := (pySplit (strLit "#") ((pySplit (strLit "/?") x).headD [])).headD [])
                    (d := d) (t := S')
                    (by show pyStripChars ['/'] _ = _
                        rw [← hS]
                        exact hSc)
                simpa using h2
              obtain ⟨b, r, hbr⟩ := pySplit_char_cons_head (c := '/') hd
              rw [hSc, hbr] at hP
              obtain ⟨hp0, _⟩ := List.cons.injEq .. ▸ hP
              rw [← hp0]
              simp

/-- The regular expression of the spec's slug invariant,
`^[^/]+/[^/]+$`: exactly two nonempty `/`-free segments. -/
def slugPat (s : Str) : Bool :=
  match pySplit ['/'] s with
  | [a, b] => !a.isEmpty && !b.isEmpty
  | _ => false

/-- The corrected pattern `^[^/]+/[^/]*$`: the second segment may be
empty (the URL path may contain consecutive slashes). -/
def slugPatAmended (s : Str) : Bool :=
  match pySplit ['/'] s with
  | [a, _] => !a.isEmpty
  | _ => false

/-- The slug invariant established by `slugOfUrl_structure`. -/
def SlugOk (e : RepoEntry) : Prop :=
  ∃ p0 p1 : Str, e.slug = p0 ++ '/' :: p1 ∧ '/' ∉ p0 ∧ '/' ∉ p1 ∧ p0 ≠ []

theorem parseStep_slugOk {st st' : ParseState} {raw : Str}
    (h : parseStep st raw = some st') (hinv : ∀ e ∈ st.entries, SlugOk e) :
    ∀ e ∈ st'.entries, SlugOk e := by
  unfold parseStep at h
  dsimp only at h
  cases hh : parseHeading (pyStrip raw) with
  | some lt =>
    rw [hh] at h
    dsimp only at h
    simp only [Option.some.injEq] at h
    rw [← h]
    exact hinv
  | none =>
    rw [hh] at h
    dsimp only at h
    cases hb : parseBullet (pyStrip raw) with
    | none =>
      rw [hb] at h
      dsimp only at h
      simp only [Option.some.injEq] at h
      rw [← h]
      exact hinv
    | some nut =>
      rw [hb] at h
      dsimp only at h
      cases hs : slugOfUrl nut.2.1 with
      | none => rw [hs] at h; exact Option.noConfusion h
      | some os =>
        rw [hs] at h
        cases os with
        | none =>
          dsimp only at h
          simp only [Option.some.injEq] at h
          rw [← h]
          exact hinv
        | some slug =>
          dsimp only at h
          split at h
          · simp only [Option.some.injEq] at h
            rw [← h]
            exact hinv
          · simp only [Option.some.injEq] at h
            rw [← h]
            intro e he
            simp only [List.mem_append, List.mem_singleton] at he
            rcases he with he | he
            · exact hinv e he
            · rw [he]
              exact slugOfUrl_structure hs

theorem foldl_parse_slugOk :
    ∀ (lines : List Str) (st : ParseState), (∀ e ∈ st.entries, SlugOk e) →
      ∀ res, List.foldlM parseStep st lines = some res →
      ∀ e ∈ res.entries, SlugOk e := by
  intro lines
  induction lines with
  | nil =>
    intro st hinv res h
    simp only [List.foldlM_nil] at h
    cases h
    exact hinv
  | cons l ls ih =>
    intro st hinv res h
    rw [List.foldlM_cons] at h
    cases hstep : parseStep st l with
    | none => rw [hstep] at h; exact Option.noConfusion h
    | some st' =>
      rw [hstep] at h
      exact ih st' (parseStep_slugOk hstep hinv) res h

/-- Every entry `parse_repos` returns satisfies the slug invariant. -/
theorem parse_repos_slugOk {md : Str} {es : List RepoEntry}
    (h : parse_repos md = some es) : ∀ e ∈ es, SlugOk e := by
  unfold parse_repos at h
  cases hf : (pySplitlines md).foldlM parseStep initState with
  | none => rw [hf] at h; exact Option.noConfusion h
  | some res =>
    rw [hf] at h
    simp only [Option.map_some', Option.some.injEq] at h
    rw [← h]
    exact foldl_parse_slugOk (pySplitlines md) initState (by intro e he; simp [initState] at he)
      res hf

theorem SlugOk_count {e : RepoEntry} (h : SlugOk e) : countChar '/' e.slug = 1 := by
  obtain ⟨p0, p1, hs, h0, h1, _⟩ := h
  unfold countChar
  rw [hs, List.count_append, List.count_cons]
  rw [List.count_eq_zero.mpr h0, List.count_eq_zero.mpr h1]
  simp

theorem count_one_no_scheme {s : Str} (h : countChar '/' s = 1) :
    pyContains s (strLit "://") = false := by
  unfold pyContains
  cases hsf : splitFirst (strLit "://") s with
  | none => rfl
  | some ba =>
    exfalso
    have happ := splitFirst_append hsf
    have : countChar '/' s = countChar '/' ba.1 + 2 + countChar '/' ba.2 := by
      rw [happ]
      show (ba.1 ++ [':', '/', '/'] ++ ba.2).count '/' = _
      unfold countChar
      simp [List.count_append, List.count_cons]
      omega
    omega

/-- A string with exactly one `/` passes `normalize_slug` unchanged. -/
theorem normalize_slug_id {s : Str} (h : countChar '/' s = 1) :
    normalize_slug s = .ok s := by
  unfold normalize_slug
  rw [count_one_no_scheme h]
  simp [h]

theorem SlugOk_patAmended {e : RepoEntry} (h : SlugOk e) :
    slugPatAmended e.slug = true := by
  obtain ⟨p0, p1, hs, h0, h1, hne⟩ := h
  unfold slugPatAmended
  rw [hs, pySplit_char_join h0 h1]
  cases p0 with
  | nil => exact absurd rfl hne
  | cons c r => rfl

/-!
## Deduplication: parse_repos versus the raw occurrence scan
-/

theorem str_contains_iff {x : Str} {l : List Str} : l.contains x = true ↔ x ∈ l := by
  simp [List.contains_eq_any_beq, List.any_eq_true]

theorem mem_dedup_slug {x : Str} :
    ∀ (os : List RepoEntry) (seen : List Str),
      x ∈ (dedupBySlug seen os).map RepoEntry.slug ↔
        x ∈ os.map RepoEntry.slug ∧ x ∉ seen := by
  intro os
  induction os with
  | nil => intro seen; simp [dedupBySlug]
  | cons o r ih =>
    intro seen
    unfold dedupBySlug
    by_cases hc : o.slug ∈ seen
    · rw [if_pos (str_contains_iff.mpr hc)]
      simp only [List.map_cons, List.mem_cons, ih]
      constructor
      · rintro ⟨hm, hn⟩
        exact ⟨Or.inr hm, hn⟩
      · rintro ⟨hor, hn⟩
        rcases hor with he | hm
        · exact absurd (he ▸ hc) hn
        · exact ⟨hm, hn⟩
    · rw [if_neg (by rw [str_contains_iff]; exact hc)]
      simp only [List.map_cons, List.mem_cons, ih]
      constructor
      · rintro (he | ⟨hm, hn⟩)
        · exact ⟨Or.inl he, he ▸ hc⟩
        · refine ⟨Or.inr hm, fun hxs => hn ?_⟩
          simp [hxs]
      · rintro ⟨hor, hns⟩
        rcases hor with he | hm
        · exact Or.inl he
        · by_cases hx : x = o.slug
          · exact Or.inl hx
          · refine Or.inr ⟨hm, fun hmem => ?_⟩
            simp only [List.mem_append, List.mem_singleton] at hmem
            rcases hmem with h1 | h2
            · exact hns h1
            · exact hx h2

theorem dedup_snoc (e : RepoEntry) :
    ∀ (os : List RepoEntry) (seen : List Str),
      dedupBySlug seen (os ++ [e]) =
        dedupBySlug seen os ++
          (if e.slug ∈ seen ∨ e.slug ∈ os.map RepoEntry.slug then [] else [e]) := by
  intro os
  induction os with
  | nil =>
    intro seen
    by_cases hm : e.slug ∈ seen
    · rw [if_pos (Or.inl hm)]
      show dedupBySlug seen [e] = []
      unfold dedupBySlug
      rw [if_pos (str_contains_iff.mpr hm)]
      rfl
    · rw [if_neg (by simp [hm])]
      show dedupBySlug seen [e] = [] ++ [e]
      unfold dedupBySlug
      rw [if_neg (by rw [str_contains_iff]; exact hm)]
      rfl
  | cons o r ih =>
    intro seen
    show dedupBySlug seen (o :: (r ++ [e])) = _
    unfold dedupBySlug
    by_cases hc : o.slug ∈ seen
    · rw [if_pos (str_contains_iff.mpr hc), if_pos (str_contains_iff.mpr hc), ih]
      by_cases hm : e.slug ∈ seen ∨ e.slug ∈ r.map RepoEntry.slug
      · rw [if_pos hm, if_pos (by
          rcases hm with h1 | h2
          · exact Or.inl h1
          · exact Or.inr (by simp [h2]))]
      · rw [if_neg hm, if_neg (by
          rintro (h1 | h2)
          · exact hm (Or.inl h1)
          · simp only [List.map_cons, List.mem_cons] at h2
            rcases h2 with he | hmm
            · exact hm (Or.inl (he ▸ hc))
            · exact hm (Or.inr hmm))]
    · rw [if_neg (by rw [str_contains_iff]; exact hc),
          if_neg (by rw [str_contains_iff]; exact hc), ih]
      by_cases hm : e.slug ∈ seen ++ [o.slug] ∨ e.slug ∈ r.map RepoEntry.slug
      · rw [if_pos hm, if_pos (by
          rcases hm with h1 | h2
          · simp only [List.mem_append, List.mem_singleton] at h1
            rcases h1 with ha | hb
            · exact Or.inl ha
            · exact Or.inr (by simp [hb])
          · exact Or.inr (by simp [h2]))]
        simp
      · rw [if_neg hm, if_neg (by
          rintro (h1 | h2)
          · exact hm (Or.inl (by simp [h1]))
          · simp only [List.map_cons, List.mem_cons] at h2
            rcases h2 with he | hmm
            · exact hm (Or.inl (by simp [he]))
            · exact hm (Or.inr hmm))]
        simp

theorem dedup_map_nodup :
    ∀ (os : List RepoEntry) (seen : List Str),
      ((dedupBySlug seen os).map RepoEntry.slug).Nodup ∧
        ∀ x ∈ (dedupBySlug seen os).map RepoEntry.slug, x ∉ seen := by
  intro os
  induction os with
  | nil => intro seen; simp [dedupBySlug]
  | cons o r ih =>
    intro seen
    unfold dedupBySlug
    by_cases hc : o.slug ∈ seen
    · rw [if_pos (str_contains_iff.mpr hc)]
      exact ih seen
    · rw [if_neg (by rw [str_contains_iff]; exact hc)]
      obtain ⟨hnd, hdisj⟩ := ih (seen ++ [o.slug])
      refine ⟨?_, ?_⟩
      · simp only [List.map_cons, List.nodup_cons]
        refine ⟨fun hmem => ?_, hnd⟩
        exact hdisj o.slug hmem (by simp)
      · intro x hx
        simp only [List.map_cons, List.mem_cons] at hx
        rcases hx with he | hm
        · exact he ▸ hc
        · intro hxs
          exact hdisj x hm (by simp [hxs])

theorem step_rel {st : ParseState} {sc : ScanState} (raw : Str)
    (hh : st.headings = sc.headings)
    (he : st.entries = dedupBySlug [] sc.entries)
    (hs : st.seen = st.entries.map RepoEntry.slug) :
    (parseStep st raw = none ∧ scanStep sc raw = none) ∨
      (∃ st2 sc2, parseStep st raw = some st2 ∧ scanStep sc raw = some sc2 ∧
        st2.headings = sc2.headings ∧ st2.entries = dedupBySlug [] sc2.entries ∧
        st2.seen = st2.entries.map RepoEntry.slug) := by
  obtain ⟨sth, sts, ste⟩ := st
  obtain ⟨sch, sce⟩ := sc
  simp only at hh he hs
  subst hh
  subst he
  subst hs
  unfold parseStep scanStep
  dsimp only
  cases hhd : parseHeading (pyStrip raw) with
  | some lt => exact Or.inr ⟨_, _, rfl, rfl, rfl, rfl, rfl⟩
  | none =>
    try dsimp only
    cases hb : parseBullet (pyStrip raw) with
    | none => exact Or.inr ⟨_, _, rfl, rfl, rfl, rfl, rfl⟩
    | some nut =>
      try dsimp only
      cases hsl : slugOfUrl nut.2.1 with
      | none => exact Or.inl ⟨rfl, rfl⟩
      | some os =>
        try dsimp only
        cases os with
        | none => exact Or.inr ⟨_, _, rfl, rfl, rfl, rfl, rfl⟩
        | some slug =>
          try dsimp only
          right
          have hslug : ∀ nm ct nt, (mkEntry nm slug ct nt).slug = slug := by
            intro nm ct nt; rfl
          by_cases hc : ((dedupBySlug [] sce).map RepoEntry.slug).contains slug = true
          · have hmem : slug ∈ sce.map RepoEntry.slug :=
              ((mem_dedup_slug sce []).mp (str_contains_iff.mp hc)).1
            refine ⟨_, _, by rw [if_pos hc], rfl, rfl, ?_, rfl⟩
            rw [dedup_snoc]
            rw [if_pos (by rw [hslug]; exact Or.inr hmem)]
            simp
          · have hnmem : slug ∉ sce.map RepoEntry.slug := by
              intro hm
              exact hc (str_contains_iff.mpr ((mem_dedup_slug sce []).mpr ⟨hm, by simp⟩))
            refine ⟨_, _, by rw [if_neg (by simpa using hc)], rfl, rfl, ?_, ?_⟩
            · have hcond : ¬ ((mkEntry nut.1 slug (currentCategory sth)
                  (clean_note nut.2.2)).slug ∈ ([] : List Str) ∨
                  (mkEntry nut.1 slug (currentCategory sth)
                    (clean_note nut.2.2)).slug ∈ sce.map RepoEntry.slug) := by
                rw [hslug]
                rintro (h1 | h2)
                · simp at h1
                · exact hnmem h2
              rw [dedup_snoc, if_neg hcond]
            · simp [mkEntry]

theorem fold_rel :
    ∀ (lines : List Str) (st : ParseState) (sc : ScanState),
      st.headings = sc.headings → st.entries = dedupBySlug [] sc.entries →
      st.seen = st.entries.map RepoEntry.slug →
      (List.foldlM parseStep st lines = none ∧ List.foldlM scanStep sc lines = none) ∨
        (∃ st2 sc2, List.foldlM parseStep st lines = some st2 ∧
          List.foldlM scanStep sc lines = some sc2 ∧
          st2.entries = dedupBySlug [] sc2.entries) := by
  intro lines
  induction lines with
  | nil =>
    intro st sc hh he hs
    exact Or.inr ⟨st, sc, rfl, rfl, he⟩
  | cons l ls ih =>
    intro st sc hh he hs
    rcases step_rel l hh he hs with ⟨h1, h2⟩ | ⟨st2, sc2, h1, h2, hh2, he2, hs2⟩
    · left
      constructor
      · rw [List.foldlM_cons, h1]; rfl
      · rw [List.foldlM_cons, h2]; rfl
    · rw [List.foldlM_cons, h1, List.foldlM_cons, h2]
      exact ih st2 sc2 hh2 he2 hs2

/-- `parse_repos` is the occurrence scan followed by first-wins
deduplication on slugs. -/
theorem parse_repos_eq_dedup (md : Str) :
    parse_repos md = (parse_occurrences md).map (dedupBySlug []) := by
  unfold parse_repos parse_occurrences
  rcases fold_rel (pySplitlines md) initState ⟨[], []⟩ rfl rfl rfl with
    ⟨h1, h2⟩ | ⟨st2, sc2, h1, h2, he⟩
  · rw [h1, h2]; rfl
  · rw [h1, h2]
    simp [he]

/-- The slugs of the entries `parse_repos` returns are pairwise
distinct. -/
theorem parse_repos_slug_nodup {md : Str} {es : List RepoEntry}
    (h : parse_repos md = some es) : (es.map RepoEntry.slug).Nodup := by
  rw [parse_repos_eq_dedup] at h
  cases ho : parse_occurrences md with
  | none => rw [ho] at h; exact Option.noConfusion h
  | some os =>
    rw [ho] at h
    simp only [Option.map_some', Option.some.injEq] at h
    rw [← h]
    exact (dedup_map_nodup os []).1

/-!
## The stable descending sort of main
-/

theorem starSort_sorted (es : List RepoEntry) :
    (starSort es).Pairwise (fun a b => keyE b ≤ keyE a) := by
  haveI ht : IsTotal RepoEntry (fun a b => keyE b ≤ keyE a) :=
    ⟨fun a b => le_total (keyE b) (keyE a)⟩
  haveI htr : IsTrans RepoEntry (fun a b => keyE b ≤ keyE a) :=
    ⟨fun _ _ _ h1 h2 => le_trans h2 h1⟩
  exact List.sorted_insertionSort (fun a b => keyE b ≤ keyE a) es

theorem filter_orderedInsert (k : ℤ) (x : RepoEntry) :
    ∀ (l : List RepoEntry),
      (List.orderedInsert (fun a b => keyE b ≤ keyE a) x l).filter
          (fun e => keyE e == k) =
        if keyE x == k then x :: l.filter (fun e => keyE e == k)
        else l.filter (fun e => keyE e == k) := by
  intro l
  induction l with
  | nil =>
    simp only [List.orderedInsert, List.filter]
    cases hx : (keyE x == k) <;> rfl
  | cons b l ih =>
    simp only [List.orderedInsert]
    by_cases hle : keyE b ≤ keyE x
    · rw [if_pos hle]
      simp only [List.filter_cons]
    · rw [if_neg hle]
      simp only [List.filter_cons, ih]
      cases hb : (keyE b == k)
      · simp [hb]
      · have hbk : keyE b = k := by simpa using hb
        have hxk : (keyE x == k) = false := by
          rw [beq_eq_false_iff_ne]
          intro he
          exact hle (by omega)
        simp [hb, hxk]

/-- Stability of the sort: for every key value, the entries carrying that
key appear in the sorted output in exactly their input order. -/
theorem starSort_filter (es : List RepoEntry) (k : ℤ) :
    (starSort es).filter (fun e => keyE e == k) =
      es.filter (fun e => keyE e == k) := by
  unfold starSort
  induction es with
  | nil => rfl
  | cons x l ih =>
    show (List.orderedInsert _ x (List.insertionSort _ l)).filter _ = _
    rw [filter_orderedInsert]
    cases hx : (keyE x == k)
    · rw [if_neg (by simp [hx])]
      simp [List.filter_cons, hx, ih]
    · rw [if_pos (by simp [hx])]
      simp [List.filter_cons, hx, ih]

theorem starSort_perm (es : List RepoEntry) : (starSort es).Perm es :=
  List.perm_insertionSort _ es

/-!
## The credential loop of fetch_star_data
-/

theorem fetchOneF_adequate (oracle : Oracle) (slug : Str)
    (tokens : List (Option Str)) :
    ∀ (f : Nat), ∀ {g idx : Nat}, tokens.length - idx < f →
      tokens.length - idx < g →
      fetchOneF oracle slug tokens f idx = fetchOneF oracle slug tokens g idx := by
  intro f
  induction f with
  | zero => intro g idx hf; omega
  | succ f ih =>
    intro g idx hf hg
    cases g with
    | zero => omega
    | succ g =>
      simp only [fetchOneF]
      cases ho : oracle slug ((tokens.get? idx).getD none) with
      | ok n => rfl
      | err e =>
        dsimp only
        by_cases hnf : isNotFoundMsg e = true
        · rw [if_pos hnf, if_pos hnf]
        · rw [if_neg hnf, if_neg hnf]
          by_cases hbc : isBadCredMsg e ∧ idx + 1 < tokens.length
          · rw [if_pos hbc, if_pos hbc]
            exact @ih g (idx + 1) (by omega) (by omega)
          · rw [if_neg hbc, if_neg hbc]

/-- The canonical unfolding of the retry loop: with adequate fuel the
loop behaves as the Python `while True` does. -/
theorem fetchOne_eq (oracle : Oracle) (slug : Str) (tokens : List (Option Str))
    (idx : Nat) :
    fetchOne oracle slug tokens idx =
      match oracle slug ((tokens.get? idx).getD none) with
      | .ok n => .ok (n, idx)
      | .err e =>
        if isNotFoundMsg e then .ok (0, idx)
        else if isBadCredMsg e ∧ idx + 1 < tokens.length then
          fetchOne oracle slug tokens (idx + 1)
        else .error e := by
  show fetchOneF oracle slug tokens (tokens.length + 1) idx = _
  simp only [fetchOneF]
  cases ho : oracle slug ((tokens.get? idx).getD none) with
  | ok n => rfl
  | err e =>
    dsimp only
    by_cases hnf : isNotFoundMsg e = true
    · rw [if_pos hnf, if_pos hnf]
    · rw [if_neg hnf, if_neg hnf]
      by_cases hbc : isBadCredMsg e ∧ idx + 1 < tokens.length
      · rw [if_pos hbc, if_pos hbc]
        exact fetchOneF_adequate oracle slug tokens tokens.length
          (by omega) (by omega)
      · rw [if_neg hbc, if_neg hbc]

/-!
## The binary64 rounding model
-/

theorem log2F_adequate :
    ∀ (f : Nat), ∀ {g n : Nat}, n ≤ f → n ≤ g → log2F f n = log2F g n := by
  intro f
  induction f with
  | zero =>
    intro g n hf hg
    have : n = 0 := by omega
    subst this
    cases g with
    | zero => rfl
    | succ g => simp [log2F]
  | succ f ih =>
    intro g n hf hg
    cases g with
    | zero =>
      have : n = 0 := by omega
      subst this
      simp [log2F]
    | succ g =>
      simp only [log2F]
      by_cases h2 : n < 2
      · rw [if_pos h2, if_pos h2]
      · rw [if_neg h2, if_neg h2]
        congr 1
        exact @ih f.succ (n / 2) (by omega) (by omega) ▸
          @ih g (n / 2) (by omega) (by omega)

theorem natLog2_spec (n : Nat) (h : 1 ≤ n) :
    2 ^ natLog2 n ≤ n ∧ n < 2 ^ (natLog2 n + 1) := by
  by_cases h2 : n < 2
  · have : n = 1 := by omega
    subst this
    constructor <;> norm_num [natLog2, log2F]
  · have hrec : natLog2 n = natLog2 (n / 2) + 1 := by
      unfold natLog2
      cases n with
      | zero => omega
      | succ m =>
        show log2F (m + 1) (m + 1) = _
        simp only [log2F]
        rw [if_neg (by omega)]
        congr 1
        exact log2F_adequate m (by omega) (by omega)
    obtain ⟨h1, h1'⟩ := natLog2_spec (n / 2) (by omega)
    rw [hrec]
    constructor
    · rw [pow_succ]
      omega
    · rw [pow_succ, pow_succ]
      omega
termination_by n
decreasing_by omega

theorem inv_le_of_one_le_mul {x y : ℚ} (hx : 0 < x) (h : 1 ≤ y * x) : x⁻¹ ≤ y := by
  have key := mul_le_mul_of_nonneg_right h (le_of_lt (inv_pos.mpr hx))
  rwa [one_mul, mul_assoc, mul_inv_cancel₀ (ne_of_gt hx), mul_one] at key

theorem inv_lt_of_one_lt_mul {x y : ℚ} (hx : 0 < x) (h : 1 < y * x) : x⁻¹ < y := by
  have key := mul_lt_mul_of_pos_right h (inv_pos.mpr hx)
  rwa [one_mul, mul_assoc, mul_inv_cancel₀ (ne_of_gt hx), mul_one] at key

theorem le_inv_of_mul_le_one {x y : ℚ} (hx : 0 < x) (h : y * x ≤ 1) : y ≤ x⁻¹ := by
  have key := mul_le_mul_of_nonneg_right h (le_of_lt (inv_pos.mpr hx))
  rwa [one_mul, mul_assoc, mul_inv_cancel₀ (ne_of_gt hx), mul_one] at key

theorem lt_inv_of_mul_lt_one {x y : ℚ} (hx : 0 < x) (h : y * x < 1) : y < x⁻¹ := by
  have key := mul_lt_mul_of_pos_right h (inv_pos.mpr hx)
  rwa [one_mul, mul_assoc, mul_inv_cancel₀ (ne_of_gt hx), mul_one] at key

theorem floorLog2_spec {q : ℚ} (hq : 0 < q) :
    (2 : ℚ) ^ floorLog2 q ≤ q ∧ q < (2 : ℚ) ^ (floorLog2 q + 1) := by
  unfold floorLog2
  by_cases h1 : (1 : ℚ) ≤ q
  · rw [if_pos h1]
    have hfl : 1 ≤ ⌊q⌋ := Int.le_floor.mpr (by exact_mod_cast h1)
    have hn1 : 1 ≤ ⌊q⌋.toNat := by omega
    obtain ⟨ha, hb⟩ := natLog2_spec ⌊q⌋.toNat hn1
    set K := natLog2 ⌊q⌋.toNat with hK
    have hcast : ((⌊q⌋.toNat : ℤ) : ℚ) = ((⌊q⌋ : ℤ) : ℚ) := by
      congr 1
      omega
    constructor
    · rw [zpow_natCast]
      calc (2 : ℚ) ^ K = ((2 ^ K : ℕ) : ℚ) := by push_cast; ring
        _ ≤ ((⌊q⌋.toNat : ℕ) : ℚ) := by exact_mod_cast ha
        _ = ((⌊q⌋ : ℤ) : ℚ) := by exact_mod_cast hcast
        _ ≤ q := Int.floor_le q
    · have hstep : ((⌊q⌋ : ℤ) : ℚ) + 1 ≤ ((2 ^ (K + 1) : ℕ) : ℚ) := by
        have : ⌊q⌋ + 1 ≤ (2 ^ (K + 1) : ℕ) := by
          have := hb
          omega
        exact_mod_cast this
      have hq2 : q < ((2 ^ (K + 1) : ℕ) : ℚ) :=
        lt_of_lt_of_le (Int.lt_floor_add_one q) hstep
      calc q < ((2 ^ (K + 1) : ℕ) : ℚ) := hq2
        _ = (2 : ℚ) ^ ((K : ℤ) + 1) := by
          rw [show ((K : ℤ) + 1) = (((K + 1 : ℕ)) : ℤ) from by push_cast; ring,
            zpow_natCast]
          push_cast
          ring
  · rw [if_neg h1]
    push_neg at h1
    have hrq : 1 < q⁻¹ := by
      have h2 : q * q⁻¹ = 1 := mul_inv_cancel₀ (ne_of_gt hq)
      nlinarith [inv_pos.mpr hq]
    have hfl : 1 ≤ ⌊q⁻¹⌋ := Int.le_floor.mpr (by exact_mod_cast le_of_lt hrq)
    have hn1 : 1 ≤ ⌊q⁻¹⌋.toNat := by omega
    obtain ⟨ha, hb⟩ := natLog2_spec ⌊q⁻¹⌋.toNat hn1
    set t := natLog2 ⌊q⁻¹⌋.toNat with ht
    have hP : (0 : ℚ) < (2 : ℚ) ^ t := by positivity
    have hP1 : (0 : ℚ) < (2 : ℚ) ^ (t + 1) := by positivity
    have hcast : ((⌊q⁻¹⌋.toNat : ℤ) : ℚ) = ((⌊q⁻¹⌋ : ℤ) : ℚ) := by
      congr 1
      omega
    have hA : (2 : ℚ) ^ t ≤ q⁻¹ := by
      calc (2 : ℚ) ^ t = ((2 ^ t : ℕ) : ℚ) := by push_cast; ring
        _ ≤ ((⌊q⁻¹⌋.toNat : ℕ) : ℚ) := by exact_mod_cast ha
        _ = ((⌊q⁻¹⌋ : ℤ) : ℚ) := by exact_mod_cast hcast
        _ ≤ q⁻¹ := Int.floor_le _
    have hB : q⁻¹ < (2 : ℚ) ^ (t + 1) := by
      have hstep : ((⌊q⁻¹⌋ : ℤ) : ℚ) + 1 ≤ ((2 ^ (t + 1) : ℕ) : ℚ) := by
        have : ⌊q⁻¹⌋ + 1 ≤ (2 ^ (t + 1) : ℕ) := by omega
        exact_mod_cast this
      calc q⁻¹ < ((⌊q⁻¹⌋ : ℤ) : ℚ) + 1 := Int.lt_floor_add_one _
        _ ≤ ((2 ^ (t + 1) : ℕ) : ℚ) := hstep
        _ = (2 : ℚ) ^ (t + 1) := by push_cast; ring
    have hA' : q * (2 : ℚ) ^ t ≤ 1 := by
      have key := mul_le_mul_of_nonneg_left hA (le_of_lt hq)
      rwa [mul_inv_cancel₀ (ne_of_gt hq)] at key
    have hB' : 1 < q * (2 : ℚ) ^ (t + 1) := by
      have key := mul_lt_mul_of_pos_left hB hq
      rwa [mul_inv_cancel₀ (ne_of_gt hq)] at key
    have hz1 : (2 : ℚ) ^ (-(t : ℤ)) = ((2 : ℚ) ^ t)⁻¹ := by
      rw [zpow_neg, zpow_natCast]
    have hz2 : (2 : ℚ) ^ (-(t : ℤ) - 1) = ((2 : ℚ) ^ (t + 1))⁻¹ := by
      rw [show -(t : ℤ) - 1 = -(((t + 1 : ℕ)) : ℤ) from by push_cast; ring,
        zpow_neg, zpow_natCast]
    by_cases heq : q * 2 ^ t = 1
    · rw [if_pos heq]
      have hqeq : q = ((2 : ℚ) ^ t)⁻¹ := by
        field_simp at heq ⊢
        linarith [heq]
      constructor
      · rw [hz1, hqeq]
      · rw [show -(t : ℤ) + 1 = -(t : ℤ) - 1 + 2 from by ring]
        rw [hqeq, ← hz1]
        have : (2 : ℚ) ^ (-(t : ℤ)) < (2 : ℚ) ^ (-(t : ℤ) - 1 + 2) := by
          apply zpow_lt_zpow_right₀ (by norm_num)
          omega
        exact this
    · rw [if_neg heq]
      constructor
      · rw [hz2]
        exact le_of_lt (inv_lt_of_one_lt_mul hP1 hB')
      · rw [show -(t : ℤ) - 1 + 1 = -(t : ℤ) from by ring, hz1]
        exact lt_inv_of_mul_lt_one hP (lt_of_le_of_ne hA' heq)

theorem rhe_intCast (n : ℤ) : rhe (n : ℚ) = n := by
  unfold rhe
  rw [Int.floor_intCast]
  norm_num

theorem rhe_err (q : ℚ) : |(rhe q : ℚ) - q| ≤ 1 / 2 := by
  unfold rhe
  have h1 : (⌊q⌋ : ℚ) ≤ q := Int.floor_le q
  have h2 : q < (⌊q⌋ : ℚ) + 1 := Int.lt_floor_add_one q
  dsimp only
  split
  · rename_i hlt
    rw [abs_le]
    constructor <;> push_cast <;> linarith
  · split
    · rename_i hle hgt
      push_neg at hle
      rw [abs_le]
      constructor <;> push_cast <;> linarith
    · split <;>
      · rename_i hle hgt _
        push_neg at hle hgt
        have he : q - (⌊q⌋ : ℚ) = 1 / 2 := le_antisymm hgt hle
        rw [abs_le]
        constructor <;> push_cast <;> linarith

theorem roundToDouble_err {q : ℚ} (hq : 0 < q) :
    |roundToDouble q - q| ≤ (2 : ℚ) ^ (floorLog2 q - 53) := by
  unfold roundToDouble
  rw [if_neg (not_le.mpr hq)]
  set k := floorLog2 q with hk
  set m := rhe (q * 2 ^ (52 - k)) with hm
  have hp : (0 : ℚ) < 2 ^ (k - 52) := zpow_pos (by norm_num) _
  have hmul : (2 : ℚ) ^ (52 - k) * 2 ^ (k - 52) = 1 := by
    rw [← zpow_add₀ (by norm_num : (2 : ℚ) ≠ 0)]
    norm_num
  have key : (m : ℚ) * 2 ^ (k - 52) - q = ((m : ℚ) - q * 2 ^ (52 - k)) * 2 ^ (k - 52) := by
    rw [sub_mul, mul_assoc, hmul, mul_one]
  rw [key, abs_mul, abs_of_pos hp]
  have herr := rhe_err (q * 2 ^ (52 - k))
  rw [← hm] at herr
  calc |(m : ℚ) - q * 2 ^ (52 - k)| * 2 ^ (k - 52) ≤ (1 / 2) * 2 ^ (k - 52) :=
        mul_le_mul_of_nonneg_right herr (le_of_lt hp)
    _ = (2 : ℚ) ^ (k - 53) := by
        rw [show (k - 53 : ℤ) = (-1) + (k - 52) from by ring,
          zpow_add₀ (by norm_num : (2 : ℚ) ≠ 0)]
        norm_num

theorem roundToDouble_int {n : ℤ} (h0 : 0 ≤ n) (h1 : n < 2 ^ (53 : ℕ)) :
    roundToDouble (n : ℚ) = n := by
  rcases eq_or_lt_of_le h0 with he | hpos
  · rw [← he]
    simp [roundToDouble]
  · have hq : (0 : ℚ) < (n : ℚ) := by exact_mod_cast hpos
    unfold roundToDouble
    rw [if_neg (not_le.mpr hq)]
    set k := floorLog2 (n : ℚ) with hk
    obtain ⟨hlo, hhi⟩ := floorLog2_spec hq
    have hk0 : 0 ≤ k := by
      by_contra hneg
      push_neg at hneg
      have : (n : ℚ) < (2 : ℚ) ^ (k + 1) := hhi
      have h2 : (2 : ℚ) ^ (k + 1) ≤ (2 : ℚ) ^ (0 : ℤ) :=
        zpow_le_zpow_right₀ (by norm_num) (by omega)
      rw [zpow_zero] at h2
      have : (n : ℚ) < 1 := lt_of_lt_of_le this h2
      have : n < 1 := by exact_mod_cast this
      omega
    have hk52 : k ≤ 52 := by
      by_contra hgt
      push_neg at hgt
      have h2 : (2 : ℚ) ^ (53 : ℤ) ≤ (2 : ℚ) ^ k :=
        zpow_le_zpow_right₀ (by norm_num) (by omega)
      have h3 : (2 : ℚ) ^ (53 : ℤ) ≤ (n : ℚ) := le_trans h2 hlo
      have h4 : ((2 ^ (53 : ℕ) : ℤ) : ℚ) ≤ (n : ℚ) := by
        rw [show ((2 ^ (53 : ℕ) : ℤ) : ℚ) = (2 : ℚ) ^ (53 : ℤ) from by push_cast; norm_num]
        exact h3
      have : (2 ^ (53 : ℕ) : ℤ) ≤ n := by exact_mod_cast h4
      omega
    have hcast : (n : ℚ) * 2 ^ (52 - k) = ((n * 2 ^ (52 - k).toNat : ℤ) : ℚ) := by
      push_cast
      congr 1
      rw [← zpow_natCast]
      congr 1
      omega
    show (rhe ((n : ℚ) * 2 ^ (52 - k)) : ℚ) * 2 ^ (k - 52) = (n : ℚ)
    rw [hcast, rhe_intCast]
    push_cast
    rw [mul_assoc]
    have : ((2 : ℚ) ^ (52 - k).toNat) * 2 ^ (k - 52) = 1 := by
      rw [← zpow_natCast, ← zpow_add₀ (by norm_num : (2 : ℚ) ≠ 0)]
      rw [show ((52 - k).toNat : ℤ) + (k - 52) = 0 from by omega]
      norm_num
    rw [this, mul_one]

/-- For remaining times below `2 ^ 52` seconds, the float computation
`int(delta / 60)` agrees with the exact floor: the correctly-rounded
double of `delta / 60` never crosses an integer boundary because the
quotient is either exact or at distance at least `1/60 > 2 ^ (-7)` from
the nearest integer. -/
theorem trunc_div60 {d : ℤ} (h0 : 0 ≤ d) (h1 : d < 2 ^ (52 : ℕ)) :
    pyTruncF (roundToDouble ((d : ℚ) / 60)) = d / 60 := by
  rcases eq_or_lt_of_le h0 with he | hpos
  · rw [← he]
    norm_num [roundToDouble, pyTruncF]
  · set q : ℚ := (d : ℚ) / 60 with hq
    have hqpos : 0 < q := by
      rw [hq]
      positivity
    set N : ℤ := d / 60 with hN
    set ρ : ℤ := d % 60 with hρ
    have hdecomp : d = 60 * N + ρ := by omega
    have hρlo : 0 ≤ ρ := by omega
    have hρhi : ρ < 60 := by omega
    have hNlo : 0 ≤ N := by omega
    by_cases hz : ρ = 0
    · have hqN : q = (N : ℚ) := by
        rw [hq]
        have : (d : ℚ) = (N : ℚ) * 60 := by
          push_cast [show d = 60 * N from by omega]
          ring
        rw [this]
        field_simp
      rw [hqN, roundToDouble_int hNlo (by
        have : N ≤ d := by omega
        have h2 : (2 : ℤ) ^ (52 : ℕ) ≤ 2 ^ (53 : ℕ) := by norm_num
        omega)]
      unfold pyTruncF
      rw [if_pos (by exact_mod_cast hNlo)]
      rw [Int.floor_intCast]
    · have hρ1 : 1 ≤ ρ := by omega
      have hqeq : q = (N : ℚ) + (ρ : ℚ) / 60 := by
        rw [hq, hdecomp]
        push_cast
        ring
      have hlow : (N : ℚ) + 1 / 60 ≤ q := by
        rw [hqeq]
        have : (1 : ℚ) ≤ (ρ : ℚ) := by exact_mod_cast hρ1
        linarith
      have hhigh : q ≤ (N : ℚ) + 59 / 60 := by
        rw [hqeq]
        have : (ρ : ℚ) ≤ 59 := by exact_mod_cast (by omega : ρ ≤ 59)
        linarith
      -- the quotient is below 2^47, so the rounding error is at most 2^(-7)
      have hq47 : q < (2 : ℚ) ^ (47 : ℤ) := by
        rw [hq, div_lt_iff (by norm_num : (0 : ℚ) < 60)]
        have hd : (d : ℚ) < (2 : ℚ) ^ (52 : ℕ) := by
          have : (d : ℚ) < ((2 ^ (52 : ℕ) : ℤ) : ℚ) := by exact_mod_cast h1
          calc (d : ℚ) < ((2 ^ (52 : ℕ) : ℤ) : ℚ) := this
            _ = (2 : ℚ) ^ (52 : ℕ) := by push_cast; ring
        have hcmp : (2 : ℚ) ^ (52 : ℕ) ≤ (2 : ℚ) ^ (47 : ℤ) * 60 := by
          rw [show ((47 : ℤ)) = ((47 : ℕ) : ℤ) from by norm_num, zpow_natCast]
          norm_num
        linarith
      obtain ⟨hlo, hhi⟩ := floorLog2_spec hqpos
      set k := floorLog2 q with hk
      have hk46 : k ≤ 46 := by
        by_contra hgt
        push_neg at hgt
        have h2 : (2 : ℚ) ^ (47 : ℤ) ≤ (2 : ℚ) ^ k :=
          zpow_le_zpow_right₀ (by norm_num) (by omega)
        linarith [le_trans h2 hlo]
      have herr := roundToDouble_err hqpos
      have herr2 : |roundToDouble q - q| ≤ (2 : ℚ) ^ (-7 : ℤ) :=
        le_trans herr (zpow_le_zpow_right₀ (by norm_num) (by omega))
      have hsmall : (2 : ℚ) ^ (-7 : ℤ) = 1 / 128 := by
        rw [show (-7 : ℤ) = -((7 : ℕ) : ℤ) from by norm_num, zpow_neg, zpow_natCast]
        norm_num
      rw [hsmall, abs_le] at herr2
      obtain ⟨hcl, hcr⟩ := herr2
      have hlow2 : (N : ℚ) < roundToDouble q := by linarith
      have hhigh2 : roundToDouble q < (N : ℚ) + 1 := by linarith
      have hN0 : (0 : ℚ) ≤ (N : ℚ) := by exact_mod_cast hNlo
      unfold pyTruncF
      rw [if_pos (by linarith)]
      exact Int.floor_eq_iff.mpr ⟨le_of_lt hlow2, by push_cast; linarith⟩

/-!
## The slug pipeline, written from the (amended) specification words
-/

/-- The slug derivation as the amended specification describes it: take
the portion of the URL after the first `github.com/` (up to a second
occurrence, if any — the Python indexing `split(sep)[1]` yields the piece
between the first two occurrences); cut everything from the first `/?`
and from the first `#`; strip slashes; keep the first two `/`-separated
segments, discarding the bullet when fewer than two remain.  `none`
stands for the `IndexError` when `github.com/` does not occur. -/
def specSlugAmended (url : Str) : Option (Option Str) :=
  match splitFirst (strLit "github.com/") url with
  | none => none
  | some ba =>
    let x := cutAtFirst (strLit "github.com/") ba.2
    let x1 := cutAtFirst (strLit "/?") x
    let x2 := cutAtFirst (strLit "#") x1
    let s := pyStripChars ['/'] x2
    let parts := pySplit (strLit "/") s
    if parts.length < 2 then some none
    else some (some (joinSep (strLit "/") (parts.take 2)))

/-!
## Claim theorems
-/

/-- C1 (counterexample): the claim's own example fails on the code.  For
`https://github.com/foo/bar?tab=x` the code splits on the two-character
separator `/?`, not on `?`, so the query suffix survives inside the
second segment and the slug is `foo/bar?tab=x`, not `foo/bar`.  Moreover
the indexing `url.split("github.com/")[1]` keeps only the piece between
the first two occurrences of `github.com/`, so
`https://github.com/a/github.com/c` yields a one-segment remainder and
the bullet is discarded, while the claim's procedure would produce the
slug `a/github.com`. -/
theorem c1_counterexample :
    parse_repos (strLit "- [a](https://github.com/foo/bar?tab=x)") =
      some [{ name := strLit "a", slug := strLit "foo/bar?tab=x",
              url := strLit "https://github.com/foo/bar?tab=x",
              category := [], note := [], stars := none }] ∧
    strLit "foo/bar?tab=x" ≠ strLit "foo/bar" ∧
    parse_repos (strLit "- [a](https://github.com/a/github.com/c)") = some [] := by
  refine ⟨by decide, by decide, by decide⟩

/-- C1 (amended): the slug computation of `parse_repos` (lines 76-80)
equals, for every URL, the amended procedure: take the portion of the URL
between the first `github.com/` and the next occurrence (if any), cut
from the first `/?` (a slash immediately followed by a question mark —
a bare `?` is not stripped) and from the first `#`, strip leading and
trailing slashes, and keep the first two `/`-separated segments; with
fewer than two segments the bullet is discarded. -/
theorem c1_slug_derivation : ∀ url : Str, slugOfUrl url = specSlugAmended url := by
  intro url
  unfold slugOfUrl specSlugAmended
  rw [pySplit_get1 (by decide) url]
  cases hsf : splitFirst (strLit "github.com/") url with
  | none => rfl
  | some ba =>
    simp only [Option.map_some']
    rw [pySplit_headD (by decide), pySplit_headD (by decide)]

/-- C2 (counterexample): a URL with consecutive slashes produces the slug
`foo/` whose second segment is empty, violating the claimed pattern
`[^/]+/[^/]+` (`slugPat`). -/
theorem c2_counterexample :
    parse_repos (strLit "- [x](https://github.com/foo//bar)") =
      some [{ name := strLit "x", slug := strLit "foo/",
              url := strLit "https://github.com/foo/",
              category := [], note := [], stars := none }] ∧
    slugPat (strLit "foo/") = false := by
  refine ⟨by decide, by decide⟩

/-- C2 (amended): every slug returned by `parse_repos` matches
`[^/]+/[^/]*` — a nonempty first segment, one slash, and a possibly
empty second segment (empty exactly when the URL path had consecutive
slashes). -/
theorem c2_slug_pattern {md : Str} {es : List RepoEntry}
    (h : parse_repos md = some es) : ∀ e ∈ es, slugPatAmended e.slug = true := by
  intro e he
  exact SlugOk_patAmended (parse_repos_slugOk h e he)

theorem c2_witness : slugPatAmended (strLit "foo/") = true :=
  @c2_slug_pattern (strLit "- [x](https://github.com/foo//bar)")
    [{ name := strLit "x", slug := strLit "foo/",
       url := strLit "https://github.com/foo/",
       category := [], note := [], stars := none }] (by decide)
    { name := strLit "x", slug := strLit "foo/",
      url := strLit "https://github.com/foo/",
      category := [], note := [], stars := none } (by decide)

/-- C7: slugs are pairwise distinct in the output of `parse_repos`, and
the output is exactly the first-wins deduplication (by slug) of the raw
occurrence scan: the kept entry is the first occurrence in document
order, with its own name, category and note, and later occurrences are
dropped without modifying it. -/
theorem c7_dedup_first_wins :
    (∀ md : Str, parse_repos md = (parse_occurrences md).map (dedupBySlug [])) ∧
    (∀ (md : Str) (es : List RepoEntry), parse_repos md = some es →
      (es.map RepoEntry.slug).Nodup) := by
  constructor
  · exact parse_repos_eq_dedup
  · intro md es h
    exact parse_repos_slug_nodup h

theorem c7_witness :
    (([{ name := strLit "foo/bar", slug := strLit "foo/bar",
         url := strLit "https://github.com/foo/bar",
         category := strLit "DBs", note := strLit "a database",
         stars := none }] : List RepoEntry).map RepoEntry.slug).Nodup :=
  c7_dedup_first_wins.2
    (strLit "# Awesome\n## DBs\n- [foo/bar](https://github.com/foo/bar) - a database\n- [foo/bar](https://github.com/foo/bar/issues) dup\n")
    _ (by decide)

/-- C10: every slug `parse_repos` produces contains exactly one `/`, so
`normalize_slug` (which `fetch_repo_stars` applies first) takes its
bare-slug branch, finds the slash count equal to one, and returns the
slug unchanged instead of raising `ValueError`. -/
theorem c10_normalize_roundtrip {md : Str} {es : List RepoEntry}
    (h : parse_repos md = some es) :
    ∀ e ∈ es, countChar '/' e.slug = 1 ∧ normalize_slug e.slug = .ok e.slug := by
  intro e he
  have hok := parse_repos_slugOk h e he
  have hc := SlugOk_count hok
  exact ⟨hc, normalize_slug_id hc⟩

theorem c10_witness :
    countChar '/' (strLit "foo/bar?tab=x") = 1 ∧
      normalize_slug (strLit "foo/bar?tab=x") = .ok (strLit "foo/bar?tab=x") :=
  @c10_normalize_roundtrip (strLit "- [a](https://github.com/foo/bar?tab=x)")
    [{ name := strLit "a", slug := strLit "foo/bar?tab=x",
       url := strLit "https://github.com/foo/bar?tab=x",
       category := [], note := [], stars := none }] (by decide)
    { name := strLit "a", slug := strLit "foo/bar?tab=x",
      url := strLit "https://github.com/foo/bar?tab=x",
      category := [], note := [], stars := none } (by decide)

/-- A minimal entry for the concrete sorting example. -/
def exEntry (nm : String) (st : Option ℤ) : RepoEntry :=
  { name := strLit nm, slug := strLit nm, url := strLit nm,
    category := [], note := [], stars := st }

/-- C3: the sort of main (line 157) orders entries by star count
descending; it is stable (for every key value the entries with that key
keep their input order — `None` and `0` both count as 0 via `keyE`), it
is a permutation; the spec's example `[5, 5, 10, None]` sorts to
`[10, 5(first), 5(second), None]`; and `render_markdown` emits a header
row, a separator row, and one row per entry with 1-based ranks, joined by
newlines with a trailing newline. -/
theorem c3_render_order :
    (∀ es : List RepoEntry, (starSort es).Pairwise (fun a b => keyE b ≤ keyE a)) ∧
    (∀ (es : List RepoEntry) (k : ℤ),
      (starSort es).filter (fun e => keyE e == k) =
        es.filter (fun e => keyE e == k)) ∧
    (∀ es : List RepoEntry, (starSort es).Perm es) ∧
    (∀ e : RepoEntry, e.stars = none → keyE e = 0) ∧
    starSort [exEntry "a" (some 5), exEntry "b" (some 5),
        exEntry "c" (some 10), exEntry "d" none] =
      [exEntry "c" (some 10), exEntry "a" (some 5),
        exEntry "b" (some 5), exEntry "d" none] ∧
    (∀ es : List RepoEntry, render_markdown es =
      joinSep (strLit "\n")
        (headerRow :: sepRow :: (es.enumFrom 1).map (fun ie => rowLine ie.1 ie.2)) ++
      strLit "\n") := by
  refine ⟨starSort_sorted, starSort_filter, starSort_perm, ?_, by decide, fun es => rfl⟩
  intro e he
  unfold keyE
  rw [he]
  rfl

theorem c3_witness : keyE (exEntry "d" none) = 0 :=
  c3_render_order.2.2.2.1 (exEntry "d" none) rfl

/-- C8: a heading line carries a level between 1 and 6; processing it
truncates the heading stack to its first `level - 1` entries and pushes
the new title; and every entry appended by the scan carries as category
the " / "-join of the open headings without the outermost (empty when at
most one heading is open). -/
theorem c8_heading_stack :
    (∀ (line : Str) (lvl : Nat) (title : Str),
      parseHeading line = some (lvl, title) → 1 ≤ lvl ∧ lvl ≤ 6) ∧
    (∀ (st : ParseState) (raw : Str) (lvl : Nat) (title : Str),
      parseHeading (pyStrip raw) = some (lvl, title) →
      parseStep st raw = some { st with headings := st.headings.take (lvl - 1) ++ [title] }) ∧
    (∀ (st st' : ParseState) (raw : Str) (e : RepoEntry),
      parseStep st raw = some st' → st'.entries = st.entries ++ [e] →
      e.category =
        (if st.headings.length ≤ 1 then [] else joinSep (strLit " / ") st.headings.tail)) := by
  refine ⟨?_, ?_, ?_⟩
  · intro line lvl title h
    unfold parseHeading at h
    dsimp only at h
    split at h
    · rename_i hgood
      split at h
      · exact Option.noConfusion h
      · split at h
        · simp only [Option.some.injEq, Prod.mk.injEq] at h
          obtain ⟨hl, _⟩ := h
          omega
        · exact Option.noConfusion h
    · exact Option.noConfusion h
  · intro st raw lvl title h
    unfold parseStep
    dsimp only
    rw [h]
  · intro st st' raw e hstep happ
    unfold parseStep at hstep
    dsimp only at hstep
    cases hh : parseHeading (pyStrip raw) with
    | some lt =>
      rw [hh] at hstep
      dsimp only at hstep
      simp only [Option.some.injEq] at hstep
      rw [← hstep] at happ
      simp only at happ
      have := congrArg List.length happ
      simp at this
    | none =>
      rw [hh] at hstep
      dsimp only at hstep
      cases hb : parseBullet (pyStrip raw) with
      | none =>
        rw [hb] at hstep
        dsimp only at hstep
        simp only [Option.some.injEq] at hstep
        rw [← hstep] at happ
        have := congrArg List.length happ
        simp at this
      | some nut =>
        rw [hb] at hstep
        dsimp only at hstep
        cases hs : slugOfUrl nut.2.1 with
        | none => rw [hs] at hstep; exact Option.noConfusion hstep
        | some os =>
          rw [hs] at hstep
          cases os with
          | none =>
            dsimp only at hstep
            simp only [Option.some.injEq] at hstep
            rw [← hstep] at happ
            have := congrArg List.length happ
            simp at this
          | some slug =>
            dsimp only at hstep
            split at hstep
            · simp only [Option.some.injEq] at hstep
              rw [← hstep] at happ
              have := congrArg List.length happ
              simp at this
            · simp only [Option.some.injEq] at hstep
              rw [← hstep] at happ
              simp only at happ
              have he : e = mkEntry nut.1 slug (currentCategory st.headings)
                  (clean_note nut.2.2) := by
                have := List.append_cancel_left happ
                simp only [List.cons.injEq] at this
                exact this.1.symm
              rw [he]
              show currentCategory st.headings = _
              unfold currentCategory
              rfl

theorem c8_witness :
    parseStep ⟨[strLit "T"], [], []⟩ (strLit "## DBs") =
      some ⟨[strLit "T", strLit "DBs"], [], []⟩ :=
  c8_heading_stack.2.1 ⟨[strLit "T"], [], []⟩ (strLit "## DBs") 2 (strLit "DBs")
    (by decide)

/-- C4: per-entry absorption versus fatal abort in `fetch_star_data`.  A
lookup failing with an error whose text contains `Not Found` (the 404
message) stores 0 stars for that entry and resolution continues with the
rest; a `RateLimitError` (whose text, as for every real GitHub rate-limit
response, contains neither `Not Found` nor `Bad credentials` — the
dispatch is by substring match on the message) aborts the whole pass at
once, with no retry and no credential advance; and `main` converts the
escaping `RateLimitError` into a `SystemExit` printing
`rate_limit_message` (a nonzero exit status), writing no report. -/
theorem c4_error_policy :
    (∀ (oracle : Oracle) (tokens : List (Option Str)) (idx : Nat)
        (e : RepoEntry) (rest : List RepoEntry) (er : PyErr),
      oracle e.slug ((tokens.get? idx).getD none) = .err er →
      isNotFoundMsg er = true →
      fetchAll oracle tokens idx (e :: rest) =
        match fetchAll oracle tokens idx rest with
        | .error err => .error err
        | .ok ri => .ok ({ e with stars := some 0 } :: ri.1, ri.2)) ∧
    (∀ (oracle : Oracle) (tokens : List (Option Str)) (idx : Nat)
        (e : RepoEntry) (rest : List RepoEntry) (m : Str) (reset : Option ℤ),
      oracle e.slug ((tokens.get? idx).getD none) = .err (.rateLimit m reset) →
      isNotFoundMsg (.rateLimit m reset) = false →
      isBadCredMsg (.rateLimit m reset) = false →
      fetchAll oracle tokens idx (e :: rest) = .error (.rateLimit m reset)) ∧
    (∀ (oracle : Oracle) (md : Str) (tokens : List (Option Str)) (now : ℤ)
        (entries : List RepoEntry) (m : Str) (reset : Option ℤ),
      parse_repos md = some entries →
      fetch_star_data oracle entries tokens = .error (.rateLimit m reset) →
      mainModel oracle md tokens now = .exited (rate_limit_message reset now) ∧
        ∀ rep, mainModel oracle md tokens now ≠ .wrote rep) := by
  refine ⟨?_, ?_, ?_⟩
  · intro oracle tokens idx e rest er ho hnf
    show (match fetchOne oracle e.slug tokens idx with
      | Except.error err => Except.error err
      | Except.ok ni =>
        match fetchAll oracle tokens ni.2 rest with
        | Except.error err => Except.error err
        | Except.ok ri => Except.ok ({ e with stars := some ni.1 } :: ri.1, ri.2)) = _
    rw [fetchOne_eq, ho]
    dsimp only
    rw [if_pos hnf]
  · intro oracle tokens idx e rest m reset ho hnf hbc
    show (match fetchOne oracle e.slug tokens idx with
      | Except.error err => Except.error err
      | Except.ok ni =>
        match fetchAll oracle tokens ni.2 rest with
        | Except.error err => Except.error err
        | Except.ok ri => Except.ok ({ e with stars := some ni.1 } :: ri.1, ri.2)) = _
    rw [fetchOne_eq, ho]
    dsimp only
    rw [if_neg (by simp [hnf]), if_neg (by simp [hbc])]
  · intro oracle md tokens now entries m reset hparse hfetch
    constructor
    · unfold mainModel
      rw [hparse]
      dsimp only
      rw [hfetch]
    · intro rep hwrote
      unfold mainModel at hwrote
      rw [hparse] at hwrote
      dsimp only at hwrote
      rw [hfetch] at hwrote
      dsimp only at hwrote
      exact MainOutcome.noConfusion hwrote

/-- An oracle that rejects the token `bad` with the 401 message and
succeeds otherwise. -/
def oracleBadThenGood : Oracle := fun _ tok =>
  if tok = some (strLit "bad") then .err (.api (strLit "Bad credentials (HTTP 401)"))
  else .ok 7

/-- An oracle that always answers with a rate-limit failure. -/
def oracleRateLimited : Oracle := fun _ _ =>
  .err (.rateLimit (strLit "API rate limit exceeded for 1.2.3.4.") (some 100))

theorem c4_witness :
    fetchAll oracleRateLimited [] 0 [exEntry "x" none] =
      .error (.rateLimit (strLit "API rate limit exceeded for 1.2.3.4.") (some 100)) :=
  c4_error_policy.2.1 oracleRateLimited [] 0 (exEntry "x" none) []
    (strLit "API rate limit exceeded for 1.2.3.4.") (some 100)
    rfl (by decide) (by decide)

/-- C5: an invalid-credential failure (text contains `Bad credentials`,
not `Not Found`) advances the token index by one and retries the same
entry when another token remains; with no further token it propagates as
fatal; the spec's `[bad, good]` scenario resolves the entry with the
second token and no error; and a successful lookup hands its token index
on to the next entry, never resetting it. -/
theorem c5_credential_fallback :
    (∀ (oracle : Oracle) (slug : Str) (tokens : List (Option Str)) (idx : Nat)
        (er : PyErr),
      oracle slug ((tokens.get? idx).getD none) = .err er →
      isBadCredMsg er = true → isNotFoundMsg er = false →
      idx + 1 < tokens.length →
      fetchOne oracle slug tokens idx = fetchOne oracle slug tokens (idx + 1)) ∧
    (∀ (oracle : Oracle) (slug : Str) (tokens : List (Option Str)) (idx : Nat)
        (er : PyErr),
      oracle slug ((tokens.get? idx).getD none) = .err er →
      isBadCredMsg er = true → isNotFoundMsg er = false →
      ¬ (idx + 1 < tokens.length) →
      fetchOne oracle slug tokens idx = .error er) ∧
    (fetchOne oracleBadThenGood (strLit "foo/bar")
        [some (strLit "bad"), some (strLit "good")] 0 = .ok (7, 1)) ∧
    (∀ (oracle : Oracle) (tokens : List (Option Str)) (idx : Nat)
        (e : RepoEntry) (rest : List RepoEntry) (n : ℤ) (idx2 : Nat),
      fetchOne oracle e.slug tokens idx = .ok (n, idx2) →
      fetchAll oracle tokens idx (e :: rest) =
        match fetchAll oracle tokens idx2 rest with
        | .error err => .error err
        | .ok ri => .ok ({ e with stars := some n } :: ri.1, ri.2)) := by
  refine ⟨?_, ?_, by decide, ?_⟩
  · intro oracle slug tokens idx er ho hbc hnf hlt
    rw [fetchOne_eq, ho]
    dsimp only
    rw [if_neg (by simp [hnf]), if_pos ⟨hbc, hlt⟩]
  · intro oracle slug tokens idx er ho hbc hnf hge
    rw [fetchOne_eq, ho]
    dsimp only
    rw [if_neg (by simp [hnf]), if_neg (by
      rintro ⟨_, hlt⟩
      exact hge hlt)]
  · intro oracle tokens idx e rest n idx2 hone
    show (match fetchOne oracle e.slug tokens idx with
      | Except.error err => Except.error err
      | Except.ok ni =>
        match fetchAll oracle tokens ni.2 rest with
        | Except.error err => Except.error err
        | Except.ok ri => Except.ok ({ e with stars := some ni.1 } :: ri.1, ri.2)) = _
    rw [hone]

theorem c5_witness :
    fetchOne oracleBadThenGood (strLit "foo/bar")
        [some (strLit "bad"), some (strLit "good")] 0 =
      fetchOne oracleBadThenGood (strLit "foo/bar")
        [some (strLit "bad"), some (strLit "good")] 1 :=
  c5_credential_fallback.1 oracleBadThenGood (strLit "foo/bar")
    [some (strLit "bad"), some (strLit "good")] 0
    (.api (strLit "Bad credentials (HTTP 401)"))
    (by decide) (by decide) (by decide) (by decide)

section
attribute [local semireducible] Rat.mul Rat.add Rat.sub Rat.inv

/-- C9: `format_stars` renders counts below 1000 as the plain integer
with no suffix, and counts at or above 1000 as the one-decimal-place
rendering of the quotient `stars/1000` followed by `k`
(`fmtFixed1 (roundToDouble _)` is the exact semantics of the Python
float division and `.1f` formatting); in particular 999 renders as
`999`, 1000 as `1.0k` and 12345 as `12.3k`. -/
theorem c9_format_stars :
    (∀ n : ℤ, n < 1000 → format_stars n = intStr n) ∧
    (∀ n : ℤ, 1000 ≤ n →
      format_stars n = fmtFixed1 (roundToDouble ((n : ℚ) / 1000)) ++ ['k']) ∧
    format_stars 999 = strLit "999" ∧
    format_stars 1000 = strLit "1.0k" ∧
    format_stars 12345 = strLit "12.3k" := by
  refine ⟨?_, ?_, by decide, by decide, by decide⟩
  · intro n h
    unfold format_stars
    rw [if_neg (by omega)]
  · intro n h
    unfold format_stars
    rw [if_pos h]

theorem c9_witness :
    format_stars 999 = intStr 999 ∧
      format_stars 12345 = fmtFixed1 (roundToDouble ((12345 : ℚ) / 1000)) ++ ['k'] :=
  ⟨c9_format_stars.1 999 (by norm_num), c9_format_stars.2.1 12345 (by norm_num)⟩

/-- C6 (counterexample): two concrete inputs refute the claim as stated.
With `reset_at = 0` the timestamp is falsy in Python (`if reset_at:`), so
the generic message is produced although a timestamp was supplied.  And
for a reset timestamp 16888498602640319 seconds in the future the float
division `int(delta / 60)` rounds up across the integer boundary —
`delta / 60 = 281474976710671.98…` lies within half an ulp of the next
integer at this magnitude — so the message reports 281474976710672
minutes while `floor(delta/60) = 281474976710671`. -/
theorem c6_counterexample :
    rate_limit_message (some 0) 5 =
      strLit "GitHub rate limit exceeded. Try again later or provide a PAT." ∧
    rate_limit_message (some 16888498602640319) 0 =
      strLit "GitHub rate limit exceeded. Try again in ~281474976710672 minutes." ∧
    (16888498602640319 : ℤ) / 60 = 281474976710671 := by
  refine ⟨by decide, by decide, by decide⟩

/-- C6 (amended): an HTTP 403 whose message mentions the rate limit
raises the distinct rate-limit failure carrying the parsed
`X-RateLimit-Reset` header when present; `rate_limit_message` with a
nonzero reset timestamp whose distance to now is below `2 ^ 52` seconds
reports `floor(max(0, reset - now) / 60)` minutes (beyond that bound the
float division can be off by one, and a zero timestamp is falsy and
yields the generic message); 300 seconds in the future reports
`~5 minutes`; and an absent timestamp yields the generic retry-later
message. -/
theorem c6_rate_limit :
    (∀ (e : HTTPErrorInfo) (s : Str), e.code = 403 →
      pyContains (pyLower e.message) (strLit "rate limit") = true →
      e.resetHeader = some s → isDigits s = true →
      handle_error e = .rateLimit e.message (some (natOfDigits s))) ∧
    (∀ e : HTTPErrorInfo, e.code = 403 →
      pyContains (pyLower e.message) (strLit "rate limit") = true →
      e.resetHeader = none →
      handle_error e = .rateLimit e.message none) ∧
    (∀ (r now : ℤ), r ≠ 0 → max 0 (r - now) < 2 ^ (52 : ℕ) →
      rate_limit_message (some r) now =
        strLit "GitHub rate limit exceeded. Try again in ~" ++
          intStr (max 0 (r - now) / 60) ++ strLit " minutes.") ∧
    rate_limit_message (some 1300) 1000 =
      strLit "GitHub rate limit exceeded. Try again in ~5 minutes." ∧
    (∀ now : ℤ, rate_limit_message none now =
      strLit "GitHub rate limit exceeded. Try again later or provide a PAT.") := by
  refine ⟨?_, ?_, ?_, by decide, fun now => rfl⟩
  · intro e s hcode hmsg hhdr hdig
    unfold handle_error
    rw [hhdr]
    dsimp only
    rw [if_pos hdig, if_pos ⟨hcode, hmsg⟩]
  · intro e hcode hmsg hhdr
    unfold handle_error
    rw [hhdr]
    dsimp only
    rw [if_pos ⟨hcode, hmsg⟩]
  · intro r now hr hb
    show (if r ≠ 0 then
        let delta : ℤ := max 0 (r - now)
        let minutes : ℤ := pyTruncF (roundToDouble ((delta : ℚ) / 60))
        strLit "GitHub rate limit exceeded. Try again in ~" ++ intStr minutes ++
          strLit " minutes."
      else strLit "GitHub rate limit exceeded. Try again later or provide a PAT.") = _
    rw [if_pos hr]
    dsimp only
    rw [trunc_div60 (le_max_left 0 (r - now)) hb]

theorem c6_witness :
    handle_error ⟨403, strLit "API rate limit exceeded", some (strLit "300")⟩ =
      .rateLimit (strLit "API rate limit exceeded") (some 300) ∧
    rate_limit_message (some 1300) 1000 =
      strLit "GitHub rate limit exceeded. Try again in ~" ++
        intStr (max 0 (1300 - 1000) / 60) ++ strLit " minutes." :=
  ⟨c6_rate_limit.1 ⟨403, strLit "API rate limit exceeded", some (strLit "300")⟩
      (strLit "300") rfl (by decide) rfl (by decide),
    c6_rate_limit.2.2.1 1300 1000 (by decide) (by decide)⟩

end
